import Mathlib

/-!
Verification of the transaction normalization / CSV / reconciliation engine
of the israeli-bank-ynab-cli repository.

Shallow embedding conventions:
* JavaScript strings are Lean `String`s; most workers operate on `List Char`
  (`String.data`) to keep the proofs structural.
* JavaScript numbers are modelled as exact rationals (`ℚ`).  The code never
  relies on float rounding in the claims under study; amounts are plain
  decimals and day differences are whole numbers.
* `Date.parse` / `new Date(...)` are modelled for the date shapes this
  pipeline produces (year-first numeric dates, optionally followed by a
  time suffix).  Exotic legacy formats of JS engines are outside the model;
  an unparseable date is `none`, standing for JavaScript's `NaN` date.
* Fallible parsing returns `Option`.
-/

namespace BankEngine

/-- JS `\s` / `String.prototype.trim` class, restricted to the ASCII
whitespace the pipeline encounters. -/
def isWs (c : Char) : Bool := c.isWhitespace

/-- Model of JS `String.prototype.trim`: drop leading and trailing
whitespace. -/
def trimChars (cs : List Char) : List Char :=
  ((cs.dropWhile isWs).reverse.dropWhile isWs).reverse

/-- Value of a digit string read in base 10 (model of `parseInt(s, 10)` on a
pure digit string). -/
def natOfDigits (cs : List Char) : ℕ :=
  cs.foldl (fun acc c => acc * 10 + (c.toNat - '0'.toNat)) 0

/-- JS `padStart(2, "0")` on a string. -/
def pad2 (cs : List Char) : List Char :=
  List.replicate (2 - cs.length) '0' ++ cs

/-- Model of JS `parseFloat`: longest valid decimal-literal prefix
(optional sign, digits, optional fraction, optional exponent), `none` for
`NaN`.  (`"Infinity"` literals are outside the model; the engine never
produces them.) -/
def jsParseFloat (cs : List Char) : Option ℚ :=
  let signAndRest : ℤ × List Char :=
    match cs with
    | '+' :: r => (1, r)
    | '-' :: r => (-1, r)
    | r => (1, r)
  let sign := signAndRest.1
  let cs1 := signAndRest.2
  let intPart := cs1.takeWhile Char.isDigit
  let cs2 := cs1.dropWhile Char.isDigit
  let fracAndRest : List Char × List Char :=
    match cs2 with
    | '.' :: r => (r.takeWhile Char.isDigit, r.dropWhile Char.isDigit)
    | r => ([], r)
  let fracPart := fracAndRest.1
  let cs3 := fracAndRest.2
  if intPart = [] ∧ fracPart = [] then none
  else
    let expVal : ℤ :=
      match cs3 with
      | c :: r =>
        if c = 'e' ∨ c = 'E' then
          let esignAndRest : ℤ × List Char :=
            match r with
            | '+' :: r2 => (1, r2)
            | '-' :: r2 => (-1, r2)
            | r2 => (1, r2)
          let eds := esignAndRest.2.takeWhile Char.isDigit
          if eds = [] then 0 else esignAndRest.1 * (natOfDigits eds : ℤ)
        else 0
      | [] => 0
    -- exact value  sign · (intVal.fracVal) · 10^expVal  of the decimal
    -- literal, assembled as a single fraction so that it evaluates inside
    -- the kernel
    let mantNum : ℤ :=
      sign * ((natOfDigits intPart : ℤ) * (10 : ℤ) ^ fracPart.length + (natOfDigits fracPart : ℤ))
    some (mkRat
      (mantNum * (if 0 ≤ expVal then (10 : ℤ) ^ expVal.toNat else 1))
      ((10 : ℕ) ^ fracPart.length * (if expVal < 0 then (10 : ℕ) ^ (-expVal).toNat else 1)))

/-- `normalizeAmount` from `column-standardization.ts`: strip currency
symbols (₪, $, €), separators and whitespace, parse as a decimal, 0 when
unparseable. -/
def normalizeAmount (value : String) : ℚ :=
  let cleaned :=
    (value.data.filter fun c => !(c == '₪' || c == '$' || c == '€' || c == ','))
      |>.filter fun c => !(isWs c)
  match jsParseFloat cleaned with
  | some q => q
  | none => 0

/-- The separator class `[\/.-]` of the `ddmmyyyy` regex. -/
def isSep (c : Char) : Bool := c == '/' || c == '-' || c == '.'

/-- Take exactly `n` digit characters from the front. -/
def splitDigitsN : ℕ → List Char → Option (List Char × List Char)
  | 0, cs => some ([], cs)
  | _ + 1, [] => none
  | n + 1, c :: cs =>
    if c.isDigit then (splitDigitsN n cs).map (fun p => (c :: p.1, p.2)) else none

/-- The anchored tail `\d{2,4}$` of the `ddmmyyyy` regex: the remaining
characters must be all digits, between 2 and 4 of them. -/
def matchYearEnd (cs : List Char) : Option (List Char) :=
  if cs.all Char.isDigit ∧ 2 ≤ cs.length ∧ cs.length ≤ 4 then some cs else none

/-- Month-and-year part `(\d{1,2})[\/.-](\d{2,4})$`, with regex
backtracking (2-digit month tried first). -/
def matchMonthYear (cs : List Char) : Option (List Char × List Char) :=
  (do
    let p ← splitDigitsN 2 cs
    match p.2 with
    | s :: r => if isSep s then (matchYearEnd r).map (fun y => (p.1, y)) else none
    | [] => none)
  <|>
  (do
    let p ← splitDigitsN 1 cs
    match p.2 with
    | s :: r => if isSep s then (matchYearEnd r).map (fun y => (p.1, y)) else none
    | [] => none)

/-- The full regex `^(\d{1,2})[\/.-](\d{1,2})[\/.-](\d{2,4})$` of
`normalizeDate`, returning the (day, month, year) capture groups. -/
def matchDMY (cs : List Char) : Option (List Char × List Char × List Char) :=
  (do
    let p ← splitDigitsN 2 cs
    match p.2 with
    | s :: r => if isSep s then (matchMonthYear r).map (fun q => (p.1, q.1, q.2)) else none
    | [] => none)
  <|>
  (do
    let p ← splitDigitsN 1 cs
    match p.2 with
    | s :: r => if isSep s then (matchMonthYear r).map (fun q => (p.1, q.1, q.2)) else none
    | [] => none)

/-- Gregorian leap year. -/
def isLeap (y : ℤ) : Bool := y % 4 == 0 && (y % 100 != 0 || y % 400 == 0)

/-- Days in a Gregorian month. -/
def daysInMonth (y : ℤ) (m : ℕ) : ℕ :=
  if m = 2 then (if isLeap y then 29 else 28)
  else if m = 4 ∨ m = 6 ∨ m = 9 ∨ m = 11 then 30
  else 31

/-- Model of `Date.parse` / `new Date(...)` for the year-first numeric date
strings this pipeline produces: 4-digit year, separator (`-`, `/` or `.`),
1–2 digit month, separator, 1–2 digit day, optionally followed by a time
suffix starting with `T` or a space.  The calendar components must be in
range.  Returns the (year, month, day) components, which the code reads
back as the local calendar date (the deployment assumption of this tool is
a local timezone at or east of UTC, so the components survive unchanged). -/
def jsDateParse (cs : List Char) : Option (ℕ × ℕ × ℕ) := do
  let py ← splitDigitsN 4 cs
  match py.2 with
  | s1 :: r1 =>
    if isSep s1 then do
      let pm ← (splitDigitsN 2 r1 <|> splitDigitsN 1 r1)
      match pm.2 with
      | s2 :: r2 =>
        if isSep s2 then do
          let pd ← (splitDigitsN 2 r2 <|> splitDigitsN 1 r2)
          let y := natOfDigits py.1
          let m := natOfDigits pm.1
          let d := natOfDigits pd.1
          if 1 ≤ m ∧ m ≤ 12 ∧ 1 ≤ d ∧ d ≤ daysInMonth (y : ℤ) m then
            match pd.2 with
            | [] => some (y, m, d)
            | 'T' :: _ => some (y, m, d)
            | ' ' :: _ => some (y, m, d)
            | _ => none
          else none
        else none
      | [] => none
    else none
  | [] => none

/-- `normalizeDate` from `column-standardization.ts`: trim; empty stays
empty; `D/M/Y`-style strings (any of the three separators, 2- or 4-digit
year with the ≥ 70 century rule) become `YYYY-MM-DD`; otherwise a string
with four leading digits that parses as a date is reformatted from its
calendar components; anything else is returned trimmed. -/
def normalizeDate (value : String) : String :=
  let trimmed := trimChars value.data
  if trimmed = [] then ⟨[]⟩
  else
    match matchDMY trimmed with
    | some (day, month, year) =>
      let fullYear :=
        if year.length = 2 then
          (if 70 ≤ natOfDigits year then 1900 + natOfDigits year else 2000 + natOfDigits year)
        else natOfDigits year
      ⟨(Nat.repr fullYear).data ++ '-' :: (pad2 month ++ '-' :: pad2 day)⟩
    | none =>
      if (trimmed.take 4).all Char.isDigit ∧ 4 ≤ trimmed.length then
        match jsDateParse trimmed with
        | some (y, m, d) =>
          ⟨(Nat.repr y).data ++ '-' :: (pad2 (Nat.repr m).data ++ '-' :: pad2 (Nat.repr d).data)⟩
        | none => ⟨trimmed⟩
      else ⟨trimmed⟩

/-- Civil day number (days since 1970-01-01) of a Gregorian date, the exact
whole-day value behind JS `Date.getTime()` for date-only strings. -/
def daysFromCivil (y : ℤ) (m d : ℕ) : ℤ :=
  let y' : ℤ := if m ≤ 2 then y - 1 else y
  let era : ℤ := (if 0 ≤ y' then y' else y' - 399) / 400
  let yoe : ℤ := y' - era * 400
  let mp : ℤ := if 2 < m then (m : ℤ) - 3 else (m : ℤ) + 9
  let doy : ℤ := (153 * mp + 2) / 5 + (d : ℤ) - 1
  let doe : ℤ := yoe * 365 + yoe / 4 - yoe / 100 + doy
  era * 146097 + doe - 719468

/-- Day number of a date string, `none` when the string does not parse
(JS `NaN`). -/
def dayNumber (s : String) : Option ℤ :=
  (jsDateParse s.data).map fun t => daysFromCivil (t.1 : ℤ) t.2.1 t.2.2

/-- `daysBetween` from `reconcile.ts`: absolute whole-day difference of two
date strings; `none` models the `NaN` produced when either side is
unparseable. -/
def daysBetween (dateA dateB : String) : Option ℕ :=
  match dayNumber dateA, dayNumber dateB with
  | some a, some b => some (a - b).natAbs
  | _, _ => none

/-- The canonical record fields of `NormalizedTransaction`
(`column-standardization.ts`). -/
inductive TxnField where
  | transactionDate
  | chargeDate
  | payee
  | outflow
  | inflow
  | originalAmount
  | notes
  | source
deriving DecidableEq, Repr

/-- `normalizeColumnName`: exact, case-sensitive, trimmed lookup in the
static `COLUMN_MAPPING` table (all entries of the source table, in order;
the keys are pairwise distinct so order is immaterial). -/
def normalizeColumnName (columnName : String) : Option TxnField :=
  let t : String := ⟨trimChars columnName.data⟩
  if t = "תאריך" then some .chargeDate
  else if t = "תאריך ערך" then some .transactionDate
  else if t = "תיאור" then some .payee
  else if t = "בחובה" then some .outflow
  else if t = "בזכות" then some .inflow
  else if t = "היתרה בש\"ח" then some .notes
  else if t = "מספר הכרטיס" then some .source
  else if t = "תאריך העסקה" then some .transactionDate
  else if t = "שם בית העסק" then some .payee
  else if t = "סכום העסקה" then some .originalAmount
  else if t = "סכום החיוב" then some .outflow
  else if t = "סוג העסקה" then some .notes
  else if t = "פרטים" then some .notes
  else if t = "תאריך החיוב" then some .chargeDate
  else if t = "תאריך עסקה" then some .transactionDate
  else if t = "4 ספרות אחרונות של כרטיס האשראי" then some .source
  else if t = "סכום חיוב" then some .outflow
  else if t = "סכום עסקה מקורי" then some .originalAmount
  else if t = "הערות" then some .notes
  else if t = "תאריך חיוב" then some .chargeDate
  else if t = "תאריך רכישה" then some .transactionDate
  else if t = "שם בית עסק" then some .payee
  else if t = "סכום עסקה" then some .originalAmount
  else if t = "פירוט נוסף" then some .notes
  else if t = "date" then some .transactionDate
  else if t = "processedDate" then some .chargeDate
  else if t = "description" then some .payee
  else if t = "chargedAmount" then some .outflow
  else if t = "originalAmount" then some .originalAmount
  else if t = "memo" then some .notes
  else if t = "identifier" then some .notes
  else if t = "Account" then some .source
  else if t = "Date" then some .transactionDate
  else if t = "Payee" then some .payee
  else if t = "Memo" then some .notes
  else if t = "Outflow" then some .outflow
  else if t = "Inflow" then some .inflow
  else none

/-- `NormalizedTransaction` of `column-standardization.ts`; amounts are
rationals, everything else keeps the source's string representation. -/
structure NormalizedTransaction where
  transactionDate : String
  chargeDate : String
  payee : String
  outflow : ℚ
  inflow : ℚ
  originalAmount : Option ℚ
  notes : String
  source : String
deriving DecidableEq, Repr

/-- The all-empty record `normalizeRow` starts from. -/
def emptyTransaction : NormalizedTransaction :=
  ⟨"", "", "", 0, 0, none, "", ""⟩

/-- One iteration of the `normalizeRow` loop: apply the per-field merge
policy of the source to a single (column, value) entry. -/
def normalizeRowStep (n : NormalizedTransaction) (entry : String × String) :
    NormalizedTransaction :=
  if entry.2 = "" then n
  else
    match normalizeColumnName entry.1 with
    | none => n
    | some .transactionDate =>
      if n.transactionDate = "" then { n with transactionDate := normalizeDate entry.2 } else n
    | some .chargeDate =>
      if n.chargeDate = "" then { n with chargeDate := normalizeDate entry.2 } else n
    | some .outflow =>
      let amount := normalizeAmount entry.2
      if amount < 0 then { n with outflow := |amount| }
      else if 0 < amount ∧ n.outflow = 0 then { n with outflow := amount }
      else n
    | some .inflow =>
      let amount := normalizeAmount entry.2
      if 0 < amount then { n with inflow := amount }
      else if amount < 0 ∧ n.inflow = 0 then { n with inflow := |amount| }
      else n
    | some .originalAmount =>
      let amount := normalizeAmount entry.2
      if amount ≠ 0 then { n with originalAmount := some |amount| } else n
    | some .payee =>
      if n.payee = "" then { n with payee := ⟨trimChars entry.2.data⟩ } else n
    | some .notes =>
      if n.notes ≠ "" then { n with notes := n.notes ++ " | " ++ ⟨trimChars entry.2.data⟩ }
      else { n with notes := ⟨trimChars entry.2.data⟩ }
    | some .source =>
      if n.source = "" then { n with source := ⟨trimChars entry.2.data⟩ } else n

/-- `normalizeRow`: fold the merge policy over the row's entries
(`Object.entries` order). -/
def normalizeRow (row : List (String × String)) : NormalizedTransaction :=
  row.foldl normalizeRowStep emptyTransaction

/-- `getEffectiveDate`: charge date if non-empty, else transaction date. -/
def getEffectiveDate (txn : NormalizedTransaction) : String :=
  if txn.chargeDate ≠ "" then txn.chargeDate else txn.transactionDate

/-- `getEffectiveAmount`: −outflow if positive, else +inflow if positive,
else 0. -/
def getEffectiveAmount (txn : NormalizedTransaction) : ℚ :=
  if 0 < txn.outflow then -txn.outflow
  else if 0 < txn.inflow then txn.inflow
  else 0

/-! ### CSV codec -/

/-- Split on `\r?\n` (JS `content.split(/\r?\n/)`); a lone `\r` is not a
line break. -/
def splitLinesAux : List Char → List Char → List (List Char)
  | [], cur => [cur.reverse]
  | '\r' :: '\n' :: rest, cur => cur.reverse :: splitLinesAux rest []
  | '\n' :: rest, cur => cur.reverse :: splitLinesAux rest []
  | c :: rest, cur => splitLinesAux rest (c :: cur)

def splitLines (cs : List Char) : List (List Char) := splitLinesAux cs []

/-- The quote-aware field scanner of `parseCSVLine`, carrying the current
field (reversed) and the `inQuotes` flag; the final field is always
pushed. -/
def parseCSVLineAux : List Char → List Char → Bool → List String
  | [], cur, _ => [⟨cur.reverse⟩]
  | '"' :: '"' :: rest, cur, true => parseCSVLineAux rest ('"' :: cur) true
  | '"' :: rest, cur, true => parseCSVLineAux rest cur false
  | c :: rest, cur, true => parseCSVLineAux rest (c :: cur) true
  | '"' :: rest, cur, false => parseCSVLineAux rest cur true
  | ',' :: rest, cur, false => ⟨cur.reverse⟩ :: parseCSVLineAux rest [] false
  | c :: rest, cur, false => parseCSVLineAux rest (c :: cur) false

/-- `parseCSVLine` from `reconcile.ts`. -/
def parseCSVLine (line : List Char) : List String :=
  parseCSVLineAux line [] false

/-- JS object assignment `row[k] = v`: overwrite an existing key in place,
otherwise append (insertion order preserved). -/
def insertEntry : List (String × String) → String → String → List (String × String)
  | [], k, v => [(k, v)]
  | (k', v') :: rest, k, v =>
    if k' = k then (k', v) :: rest else (k', v') :: insertEntry rest k v

/-- The header→value record of a data row:
`row[headers[j]] = values[j] ?? ""` for each `j` below the header count. -/
def buildRecordAux : List String → ℕ → List String → List (String × String) →
    List (String × String)
  | [], _, _, acc => acc
  | h :: hs, j, values, acc => buildRecordAux hs (j + 1) values (insertEntry acc h (values.getD j ""))

def buildRecord (headers values : List String) : List (String × String) :=
  buildRecordAux headers 0 values []

/-- `isValidTransaction`: a non-empty string in either date field and a
positive outflow or inflow. -/
def isValidTransaction (txn : NormalizedTransaction) : Bool :=
  (!(txn.transactionDate == "") || !(txn.chargeDate == "")) &&
    (decide (0 < txn.outflow) || decide (0 < txn.inflow))

/-- `parseCSV` from `reconcile.ts`: split into non-blank lines, first line
is the header, remaining lines become records, are normalized, and kept
only when valid. -/
def parseCSV (content : String) : List NormalizedTransaction :=
  let lines := (splitLines content.data).filter fun l => !(trimChars l).isEmpty
  match lines with
  | [] => []
  | [_] => []
  | headerLine :: dataLines =>
    let headers := parseCSVLine headerLine
    (dataLines.map fun line => normalizeRow (buildRecord headers (parseCSVLine line))).filter
      isValidTransaction

/-- The rows `parseCSV` builds before the validity filter (the body of its
loop without the `isValidTransaction` guard). -/
def parsedRows (content : String) : List NormalizedTransaction :=
  let lines := (splitLines content.data).filter fun l => !(trimChars l).isEmpty
  match lines with
  | [] => []
  | [_] => []
  | headerLine :: dataLines =>
    let headers := parseCSVLine headerLine
    dataLines.map fun line => normalizeRow (buildRecord headers (parseCSVLine line))

/-- `YnabRow` of `transformer.ts` as consumed by `csv-writer.ts`: five
plain string fields. -/
structure YnabRow where
  date : String
  payee : String
  memo : String
  outflow : String
  inflow : String
deriving DecidableEq, Repr

/-- Double every quote (JS `value.replace(/"/g, '""')`). -/
def doubleQuotes : List Char → List Char
  | [] => []
  | c :: rest => if c = '"' then '"' :: '"' :: doubleQuotes rest else c :: doubleQuotes rest

/-- `escapeCSV` from `csv-writer.ts`: quote-wrap (doubling inner quotes)
iff the value contains a quote, a comma or a newline. -/
def escapeCSV (value : String) : String :=
  if '"' ∈ value.data ∨ ',' ∈ value.data ∨ '\n' ∈ value.data then
    ⟨'"' :: (doubleQuotes value.data ++ ['"'])⟩
  else value

/-- JS `Array.prototype.join` at the character level. -/
def joinChar (sep : Char) : List (List Char) → List Char
  | [] => []
  | [l] => l
  | l :: l2 :: ls => l ++ sep :: joinChar sep (l2 :: ls)

/-- The serialized line of one row (`values.join(",")`). -/
def rowLine (row : YnabRow) : String :=
  ⟨joinChar ','
    [(escapeCSV row.date).data, (escapeCSV row.payee).data, (escapeCSV row.memo).data,
     (escapeCSV row.outflow).data, (escapeCSV row.inflow).data]⟩

/-- `toCSV` from `csv-writer.ts`: fixed header plus one line per row,
joined with `\n` (`lines.join("\n")`). -/
def toCSV (rows : List YnabRow) : String :=
  ⟨joinChar '\n'
    (("Date,Payee,Memo,Outflow,Inflow" : String).data :: rows.map fun r => (rowLine r).data)⟩

/-- A canonical output row as produced by the transformer (§3 of the spec):
an ISO date the normalizer leaves unchanged, a trimmed payee, non-negative
decimal amount strings with at least one positive, and no line-break
characters in any field (the serializer quotes embedded line breaks but the
parser splits lines first, so line breaks are excluded here; see the C4
counterexample). -/
def canonicalRow (r : YnabRow) : Prop :=
  ('\n' ∉ r.date.data ∧ '\r' ∉ r.date.data) ∧
  ('\n' ∉ r.payee.data ∧ '\r' ∉ r.payee.data) ∧
  ('\n' ∉ r.memo.data ∧ '\r' ∉ r.memo.data) ∧
  ('\n' ∉ r.outflow.data ∧ '\r' ∉ r.outflow.data) ∧
  ('\n' ∉ r.inflow.data ∧ '\r' ∉ r.inflow.data) ∧
  normalizeDate r.date = r.date ∧ r.date ≠ "" ∧
  (⟨trimChars r.payee.data⟩ : String) = r.payee ∧
  0 ≤ normalizeAmount r.outflow ∧ 0 ≤ normalizeAmount r.inflow ∧
  (0 < normalizeAmount r.outflow ∨ 0 < normalizeAmount r.inflow)

instance (r : YnabRow) : Decidable (canonicalRow r) := by
  unfold canonicalRow
  infer_instance

/-! ### Reconciliation matcher -/

def DATE_TOLERANCE_DAYS : ℕ := 2

/-- `amountsMatch`: absolute values within (strictly less than) 0.01. -/
def amountsMatch (a b : ℚ) : Prop := |(|a| - |b|)| < 1 / 100

instance (a b : ℚ) : Decidable (amountsMatch a b) := by
  unfold amountsMatch; infer_instance

/-- One iteration of the `findBestMatch` scanning loop: skip a candidate
with no effective date or a mismatched amount; a strictly smaller day
difference replaces the incumbent, so the first pool element attaining the
minimum wins.  An unparseable candidate date gives a `NaN` difference in
JS, which neither passes `dateDiff > DATE_TOLERANCE_DAYS` (so it is not
`continue`d) nor `dateDiff < bestDateDiff` (so it is never selected) —
modelled by the `none` branch keeping `best`. -/
def considerCandidate (sa : ℚ) (sd : String) (candidate : NormalizedTransaction)
    (i : ℕ) (best : Option (ℕ × ℕ)) : Option (ℕ × ℕ) :=
  if getEffectiveDate candidate = "" then best
  else if amountsMatch sa (getEffectiveAmount candidate) then
    match daysBetween sd (getEffectiveDate candidate) with
    | none => best
    | some d =>
      if DATE_TOLERANCE_DAYS < d then best
      else
        match best with
        | none => some (i, d)
        | some (_, bd) => if d < bd then some (i, d) else best
  else best

/-- The scanning loop of `findBestMatch`, keeping the best (index, day
difference) seen so far. -/
def findBestAux (sa : ℚ) (sd : String) :
    List NormalizedTransaction → ℕ → Option (ℕ × ℕ) → Option (ℕ × ℕ)
  | [], _, best => best
  | candidate :: rest, i, best =>
    findBestAux sa sd rest (i + 1) (considerCandidate sa sd candidate i best)

/-- `findBestMatch` from `reconcile.ts`, returning the pool index and day
difference of the selected candidate. -/
def findBestMatch (s : NormalizedTransaction) (pool : List NormalizedTransaction) :
    Option (ℕ × ℕ) :=
  let sa := getEffectiveAmount s
  let sd := getEffectiveDate s
  if sd = "" ∨ sa = 0 then none
  else findBestAux sa sd pool 0 none

/-- A pool element qualifies for a given source transaction with day
difference `d`: non-empty effective date, amounts within tolerance, and a
(parseable) date difference of at most `DATE_TOLERANCE_DAYS`. -/
def matchCandidate (s c : NormalizedTransaction) (d : ℕ) : Prop :=
  getEffectiveDate c ≠ "" ∧
    amountsMatch (getEffectiveAmount s) (getEffectiveAmount c) ∧
    daysBetween (getEffectiveDate s) (getEffectiveDate c) = some d ∧
    d ≤ DATE_TOLERANCE_DAYS

structure MatchedTransaction where
  source : NormalizedTransaction
  target : NormalizedTransaction
deriving DecidableEq, Repr

structure FlaggedTransaction where
  source : NormalizedTransaction
  target : NormalizedTransaction
  dateDiff : ℕ
deriving DecidableEq, Repr

/-- `ReconcileResult` (file names omitted: file I/O stays outside the
engine). -/
structure ReconcileResult where
  sourceCount : ℕ
  targetCount : ℕ
  matched : List MatchedTransaction
  flagged : List FlaggedTransaction
  missingFromTarget : List NormalizedTransaction
  extraInTarget : List NormalizedTransaction
deriving DecidableEq, Repr

/-- The main loop of `reconcile`: each source transaction either claims its
best pool candidate (removed from the pool at its index — `removeFromPool`
removes by object identity, which is exactly the scanned position) or goes
to `missingFromTarget`; a claimed pair with day difference 0 is matched,
otherwise flagged.  The inner `none` branch of the pool lookup is
unreachable (`findBestMatch` only returns in-range indices). -/
def reconcileLoop :
    List NormalizedTransaction → List NormalizedTransaction →
      List MatchedTransaction × List FlaggedTransaction ×
        List NormalizedTransaction × List NormalizedTransaction
  | [], pool => ([], [], [], pool)
  | sourceTxn :: rest, pool =>
    match findBestMatch sourceTxn pool with
    | none =>
      let r := reconcileLoop rest pool
      (r.1, r.2.1, sourceTxn :: r.2.2.1, r.2.2.2)
    | some (i, d) =>
      match pool[i]? with
      | none =>
        let r := reconcileLoop rest pool
        (r.1, r.2.1, sourceTxn :: r.2.2.1, r.2.2.2)
      | some target =>
        let r := reconcileLoop rest (pool.eraseIdx i)
        if d = 0 then (⟨sourceTxn, target⟩ :: r.1, r.2.1, r.2.2.1, r.2.2.2)
        else (r.1, ⟨sourceTxn, target, d⟩ :: r.2.1, r.2.2.1, r.2.2.2)

/-- `reconcile` over the two parsed transaction lists. -/
def reconcile (sourceTransactions targetTransactions : List NormalizedTransaction) :
    ReconcileResult :=
  let r := reconcileLoop sourceTransactions targetTransactions
  ⟨sourceTransactions.length, targetTransactions.length, r.1, r.2.1, r.2.2.1, r.2.2.2⟩

/-! ### Date & installment logic of `transformer.ts`

The transformer source file is not part of `src/` (only its test file is),
so the two functions the claims need are modelled from the specification
and checked against the expectations of `transformer.test.ts`. -/

/-- Render a (year, month, day) triple as `YYYY-MM-DD` with zero-padded
month and day. -/
def renderYMD (y m d : ℕ) : String :=
  ⟨(Nat.repr y).data ++ '-' :: (pad2 (Nat.repr m).data ++ '-' :: pad2 (Nat.repr d).data)⟩

/-- Modelled from the spec: `parseDate` of the missing `transformer.ts`
(§4.2 "Date parsing for transformation") — accepts ISO-with-offset strings,
plain ISO, and `D/M/Y` with 1–2 digit components, 2- or 4-digit year and
the ≥ 70 century rule; anything else is unparseable. -/
def parseDate (s : String) : Option (ℕ × ℕ × ℕ) :=
  let t := trimChars s.data
  match matchDMY t with
  | some (day, month, year) =>
    let fullYear :=
      if year.length = 2 then
        (if 70 ≤ natOfDigits year then 1900 + natOfDigits year else 2000 + natOfDigits year)
      else natOfDigits year
    let mo := natOfDigits month
    let da := natOfDigits day
    if 1 ≤ mo ∧ mo ≤ 12 ∧ 1 ≤ da ∧ da ≤ daysInMonth (fullYear : ℤ) mo then
      some (fullYear, mo, da)
    else none
  | none => jsDateParse t

/-- The month preceding a given (year, month). -/
def prevMonth (y m : ℕ) : ℕ × ℕ :=
  if m = 1 then (y - 1, 12) else (y, m - 1)

/-- Subtract one calendar month with standard rollover: keep the day of
month; a day past the end of the shifted month rolls into the following
month (which is the original month again). -/
def subOneMonth (date : ℕ × ℕ × ℕ) : ℕ × ℕ × ℕ :=
  let y' := (prevMonth date.1 date.2.1).1
  let m' := (prevMonth date.1 date.2.1).2
  let len := daysInMonth (y' : ℤ) m'
  if date.2.2 ≤ len then (y', m', date.2.2)
  else (date.1, date.2.1, date.2.2 - len)

/-- Add one calendar day with standard rollover. -/
def addOneDay (date : ℕ × ℕ × ℕ) : ℕ × ℕ × ℕ :=
  if date.2.2 + 1 ≤ daysInMonth (date.1 : ℤ) date.2.1 then (date.1, date.2.1, date.2.2 + 1)
  else if date.2.1 = 12 then (date.1 + 1, 1, 1)
  else (date.1, date.2.1 + 1, 1)

/-- Modelled from the spec: `deriveYnabSafeInstallmentDate` of the missing
`transformer.ts` — parse the charge date, subtract exactly one calendar
month, add exactly one calendar day, render as `YYYY-MM-DD`.  The offset is
fixed: the function takes no installment number/total. -/
def deriveYnabSafeInstallmentDate (chargeDate : String) : Option String :=
  (parseDate chargeDate).map fun t => renderYMD (addOneDay (subOneMonth t)).1
    (addOneDay (subOneMonth t)).2.1 (addOneDay (subOneMonth t)).2.2

/-- Consume a literal character sequence from the front. -/
def dropLiteral : List Char → List Char → Option (List Char)
  | [], cs => some cs
  | l :: ls, c :: cs => if c = l then dropLiteral ls cs else none
  | _ :: _, [] => none

/-- Read a non-empty run of digits as a number. -/
def takeNat (cs : List Char) : Option (ℕ × List Char) :=
  let ds := cs.takeWhile Char.isDigit
  if ds.isEmpty then none else some (natOfDigits ds, cs.dropWhile Char.isDigit)

/-- Optional spaces, optional dash, optional spaces. -/
def skipDashWs (cs : List Char) : List Char :=
  match cs.dropWhile isWs with
  | '-' :: r => r.dropWhile isWs
  | a => a

/-- Modelled from the spec: the Hebrew "payment N of M" pattern (`תשלום`,
optional dashes/spaces, N, `מ`, optional dash/spaces, M) of the missing
`transformer.ts` installment matcher. -/
def installmentHeb (cs : List Char) : Option (ℕ × ℕ) := do
  let r1 ← dropLiteral "תשלום".data cs
  let p1 ← takeNat (skipDashWs r1)
  let r2 ← dropLiteral "מ".data (p1.2.dropWhile isWs)
  let p2 ← takeNat (skipDashWs r2)
  some (p1.1, p2.1)

/-- Modelled from the spec: the Hebrew "N out-of M" pattern (`N מתוך M`) of
the missing `transformer.ts` installment matcher. -/
def installmentHebOutOf (cs : List Char) : Option (ℕ × ℕ) := do
  let p1 ← takeNat cs
  let r1 ← dropLiteral "מתוך".data (p1.2.dropWhile isWs)
  let p2 ← takeNat (r1.dropWhile isWs)
  some (p1.1, p2.1)

/-- Modelled from the spec: the English "payment N of M" pattern
(capitalized or not) of the missing `transformer.ts` installment
matcher. -/
def installmentEng (cs : List Char) : Option (ℕ × ℕ) := do
  let r0 ← match cs with
    | 'p' :: r => some r
    | 'P' :: r => some r
    | _ => none
  let r1 ← dropLiteral "ayment".data r0
  let p1 ← takeNat (r1.dropWhile isWs)
  let r2 ← dropLiteral "of".data (p1.2.dropWhile isWs)
  let p2 ← takeNat (r2.dropWhile isWs)
  some (p1.1, p2.1)

/-- Modelled from the spec: unanchored scan of the free text for the first
position where one of the three installment patterns matches
structurally. -/
def installmentScan : List Char → Option (ℕ × ℕ)
  | [] => none
  | c :: rest =>
    match installmentHeb (c :: rest) <|> installmentHebOutOf (c :: rest) <|>
        installmentEng (c :: rest) with
    | some p => some p
    | none => installmentScan rest

/-- Modelled from the spec: `parseInstallments` of the missing
`transformer.ts` — on a structural match parse N and M and reject unless
`1 ≤ N`, `1 ≤ M` and `N ≤ M`; any other text is "not an installment". -/
def parseInstallments (text : String) : Option (ℕ × ℕ) :=
  match installmentScan text.data with
  | some p => if 1 ≤ p.1 ∧ 1 ≤ p.2 ∧ p.1 ≤ p.2 then some p else none
  | none => none

/-! ## Theorems -/

/-- C5: for every parseable charge date, `deriveYnabSafeInstallmentDate`
returns the date obtained by subtracting exactly one calendar month and
then adding exactly one calendar day (standard rollover), independent of
the installment's number and total (the function takes no such inputs);
in particular 2026-02-10 ↦ 2026-01-11, 2024-01-15 ↦ 2023-12-16 and
2024-03-31 ↦ 2024-03-03. -/
theorem c5_derive_installment_date (s : String) (y m d : ℕ)
    (h : parseDate s = some (y, m, d)) :
    deriveYnabSafeInstallmentDate s =
      some (renderYMD (addOneDay (subOneMonth (y, m, d))).1
        (addOneDay (subOneMonth (y, m, d))).2.1 (addOneDay (subOneMonth (y, m, d))).2.2) ∧
    deriveYnabSafeInstallmentDate "2026-02-10" = some "2026-01-11" ∧
    deriveYnabSafeInstallmentDate "2024-01-15" = some "2023-12-16" ∧
    deriveYnabSafeInstallmentDate "2024-03-31" = some "2024-03-03" := by
  refine ⟨?_, by decide, by decide, by decide⟩
  simp [deriveYnabSafeInstallmentDate, h]

/-- Witness for C5 at the concrete charge date 2026-02-10. -/
theorem c5_derive_installment_date_witness :
    parseDate "2026-02-10" = some (2026, 2, 10) ∧
    deriveYnabSafeInstallmentDate "2026-02-10" =
      some (renderYMD (addOneDay (subOneMonth (2026, 2, 10))).1
        (addOneDay (subOneMonth (2026, 2, 10))).2.1
        (addOneDay (subOneMonth (2026, 2, 10))).2.2) :=
  ⟨by decide, (c5_derive_installment_date "2026-02-10" 2026 2 10 (by decide)).1⟩

/-- C6: `parseInstallments` returns a descriptor exactly when the text
matches one of the installment patterns structurally and the parsed
numbers satisfy `1 ≤ N`, `1 ≤ M`, `N ≤ M`; all other text — including
structural matches with `N > M` or a zero component — yields "not an
installment". -/
theorem c6_parse_installments :
    (∀ (text : String) (n m : ℕ),
        parseInstallments text = some (n, m) ↔
          installmentScan text.data = some (n, m) ∧ 1 ≤ n ∧ 1 ≤ m ∧ n ≤ m) ∧
    parseInstallments "תשלום 2 מ-12" = some (2, 12) ∧
    parseInstallments "payment 2 of 12" = some (2, 12) ∧
    parseInstallments "תשלום 15 מ-12" = none ∧
    parseInstallments "תשלום 0 מ-12" = none ∧
    parseInstallments "סופר פארם" = none ∧
    parseInstallments "" = none := by
  refine ⟨?_, by decide, by decide, by decide, by decide, by decide, by decide⟩
  intro text n m
  unfold parseInstallments
  rcases h : installmentScan text.data with _ | ⟨a, b⟩
  · simp
  · dsimp only
    by_cases hc : 1 ≤ a ∧ 1 ≤ b ∧ a ≤ b
    · rw [if_pos hc]
      simp only [Option.some.injEq, Prod.mk.injEq]
      constructor
      · rintro ⟨rfl, rfl⟩
        exact ⟨⟨rfl, rfl⟩, hc.1, hc.2.1, hc.2.2⟩
      · rintro ⟨⟨rfl, rfl⟩, -⟩
        exact ⟨rfl, rfl⟩
    · rw [if_neg hc]
      simp only [Option.some.injEq, Prod.mk.injEq]
      constructor
      · rintro ⟨⟩
      · rintro ⟨⟨rfl, rfl⟩, h1, h2, h3⟩
        exact absurd ⟨h1, h2, h3⟩ hc

/-- Witness for C6 at the concrete text "תשלום 2 מ-12". -/
theorem c6_parse_installments_witness :
    parseInstallments "תשלום 2 מ-12" = some (2, 12) ↔
      installmentScan ("תשלום 2 מ-12" : String).data = some (2, 12) ∧
        1 ≤ 2 ∧ 1 ≤ 12 ∧ 2 ≤ 12 :=
  c6_parse_installments.1 "תשלום 2 מ-12" 2 12

theorem normalizeRowStep_outflow (n : NormalizedTransaction) (e : String × String) :
    (normalizeRowStep n e).outflow = n.outflow ∨
      (normalizeColumnName e.1 = some TxnField.outflow ∧ normalizeAmount e.2 ≠ 0) := by
  unfold normalizeRowStep
  by_cases h0 : e.2 = ""
  · rw [if_pos h0]
    exact Or.inl rfl
  · rw [if_neg h0]
    rcases h : normalizeColumnName e.1 with _ | f
    · exact Or.inl rfl
    · cases f <;> dsimp only
      · exact Or.inl (by split_ifs <;> rfl)
      · exact Or.inl (by split_ifs <;> rfl)
      · exact Or.inl (by split_ifs <;> rfl)
      · split_ifs with h1 h2
        · exact Or.inr ⟨rfl, h1.ne⟩
        · exact Or.inr ⟨rfl, h2.1.ne'⟩
        · exact Or.inl rfl
      · exact Or.inl (by split_ifs <;> rfl)
      · exact Or.inl (by split_ifs <;> rfl)
      · exact Or.inl (by split_ifs <;> rfl)
      · exact Or.inl (by split_ifs <;> rfl)

theorem normalizeRowStep_inflow (n : NormalizedTransaction) (e : String × String) :
    (normalizeRowStep n e).inflow = n.inflow ∨
      (normalizeColumnName e.1 = some TxnField.inflow ∧ normalizeAmount e.2 ≠ 0) := by
  unfold normalizeRowStep
  by_cases h0 : e.2 = ""
  · rw [if_pos h0]
    exact Or.inl rfl
  · rw [if_neg h0]
    rcases h : normalizeColumnName e.1 with _ | f
    · exact Or.inl rfl
    · cases f <;> dsimp only
      · exact Or.inl (by split_ifs <;> rfl)
      · exact Or.inl (by split_ifs <;> rfl)
      · exact Or.inl (by split_ifs <;> rfl)
      · exact Or.inl (by split_ifs <;> rfl)
      · split_ifs with h1 h2
        · exact Or.inr ⟨rfl, h1.ne'⟩
        · exact Or.inr ⟨rfl, h2.1.ne⟩
        · exact Or.inl rfl
      · exact Or.inl (by split_ifs <;> rfl)
      · exact Or.inl (by split_ifs <;> rfl)
      · exact Or.inl (by split_ifs <;> rfl)

theorem foldl_outflow_ne_zero (row : List (String × String)) :
    ∀ init : NormalizedTransaction, (row.foldl normalizeRowStep init).outflow ≠ 0 →
      init.outflow ≠ 0 ∨
        ∃ e ∈ row, normalizeColumnName e.1 = some TxnField.outflow ∧ normalizeAmount e.2 ≠ 0 := by
  induction row with
  | nil => exact fun init h => Or.inl h
  | cons e t ih =>
    intro init h
    rw [List.foldl_cons] at h
    rcases ih _ h with h' | ⟨e', he', hp⟩
    · rcases normalizeRowStep_outflow init e with hst | hp
      · exact Or.inl (hst ▸ h')
      · exact Or.inr ⟨e, List.mem_cons_self e t, hp⟩
    · exact Or.inr ⟨e', List.mem_cons_of_mem e he', hp⟩

theorem foldl_inflow_ne_zero (row : List (String × String)) :
    ∀ init : NormalizedTransaction, (row.foldl normalizeRowStep init).inflow ≠ 0 →
      init.inflow ≠ 0 ∨
        ∃ e ∈ row, normalizeColumnName e.1 = some TxnField.inflow ∧ normalizeAmount e.2 ≠ 0 := by
  induction row with
  | nil => exact fun init h => Or.inl h
  | cons e t ih =>
    intro init h
    rw [List.foldl_cons] at h
    rcases ih _ h with h' | ⟨e', he', hp⟩
    · rcases normalizeRowStep_inflow init e with hst | hp
      · exact Or.inl (hst ▸ h')
      · exact Or.inr ⟨e, List.mem_cons_self e t, hp⟩
    · exact Or.inr ⟨e', List.mem_cons_of_mem e he', hp⟩

/-- C3 (amended): a normalized row is a debit or a credit — at most one of
`outflow`/`inflow` non-zero — unless the input row itself carries both a
debit-mapped column and a credit-mapped column with non-zero amounts, in
which case `normalizeRow` keeps both sides. -/
theorem c3_debit_or_credit_zero (row : List (String × String))
    (h : ¬((∃ e ∈ row, normalizeColumnName e.1 = some TxnField.outflow ∧
              normalizeAmount e.2 ≠ 0) ∧
           (∃ e ∈ row, normalizeColumnName e.1 = some TxnField.inflow ∧
              normalizeAmount e.2 ≠ 0))) :
    (normalizeRow row).outflow = 0 ∨ (normalizeRow row).inflow = 0 := by
  by_contra hc
  push_neg at hc
  refine h ⟨?_, ?_⟩
  · rcases foldl_outflow_ne_zero row emptyTransaction hc.1 with h' | h'
    · exact absurd rfl h'
    · exact h'
  · rcases foldl_inflow_ne_zero row emptyTransaction hc.2 with h' | h'
    · exact absurd rfl h'
    · exact h'

/-- Witness for C3 (amended) at a row with a single debit column. -/
theorem c3_debit_or_credit_zero_witness :
    ¬((∃ e ∈ [(("בחובה" : String), ("5" : String))],
          normalizeColumnName e.1 = some TxnField.outflow ∧ normalizeAmount e.2 ≠ 0) ∧
      (∃ e ∈ [(("בחובה" : String), ("5" : String))],
          normalizeColumnName e.1 = some TxnField.inflow ∧ normalizeAmount e.2 ≠ 0)) ∧
    ((normalizeRow [("בחובה", "5")]).outflow = 0 ∨ (normalizeRow [("בחובה", "5")]).inflow = 0) :=
  ⟨by decide, c3_debit_or_credit_zero [("בחובה", "5")] (by decide)⟩

/-- C3 counterexample: a row with both a non-zero debit column and a
non-zero credit column normalizes to a transaction with both `outflow` and
`inflow` non-zero, contradicting the claimed invariant. -/
theorem c3_both_nonzero_counterexample :
    (normalizeRow [("בחובה", "5"), ("בזכות", "3")]).outflow ≠ 0 ∧
    (normalizeRow [("בחובה", "5"), ("בזכות", "3")]).inflow ≠ 0 := by decide

/-- C8 (amended): an input matching none of the accepted date formats is
returned *trimmed* (the code returns `trimmed`, not the original string);
the function is total, so no error is possible. -/
theorem c8_unparseable_returned_trimmed (s : String)
    (h1 : matchDMY (trimChars s.data) = none)
    (h2 : jsDateParse (trimChars s.data) = none) :
    normalizeDate s = ⟨trimChars s.data⟩ := by
  unfold normalizeDate
  by_cases ht : trimChars s.data = []
  · rw [if_pos ht]
    exact congrArg String.mk ht.symm
  · rw [if_neg ht]
    simp only [h1]
    split_ifs with hgate
    · simp only [h2]
    · rfl

/-- Witness for C8 (amended) at the concrete input "hello". -/
theorem c8_unparseable_returned_trimmed_witness :
    matchDMY (trimChars ("hello" : String).data) = none ∧
    jsDateParse (trimChars ("hello" : String).data) = none ∧
    normalizeDate "hello" = ⟨trimChars ("hello" : String).data⟩ :=
  ⟨by decide, by decide, c8_unparseable_returned_trimmed "hello" (by decide) (by decide)⟩

/-- C8 counterexample: the input " x " matches no accepted date format,
yet `normalizeDate` returns "x", not the input unchanged. -/
theorem c8_trimmed_not_unchanged_counterexample :
    matchDMY (trimChars (" x " : String).data) = none ∧
    jsDateParse (trimChars (" x " : String).data) = none ∧
    normalizeDate " x " ≠ " x " := by decide

/-- C9 (amended): `parseCSV` keeps exactly the normalized rows whose
transaction carries a *non-empty string* (not necessarily a successfully
parsed date) in one of the two date fields and a positive outflow or
inflow; empty input yields the empty list. -/
theorem c9_kept_iff_nonempty_date_and_amount :
    (∀ content : String, parseCSV content = (parsedRows content).filter isValidTransaction) ∧
    (∀ txn : NormalizedTransaction,
        isValidTransaction txn = true ↔
          ((txn.transactionDate ≠ "" ∨ txn.chargeDate ≠ "") ∧
            (0 < txn.outflow ∨ 0 < txn.inflow))) ∧
    parseCSV "" = [] := by
  refine ⟨?_, ?_, by decide⟩
  · intro content
    unfold parseCSV parsedRows
    rcases (splitLines content.data).filter (fun l => !(trimChars l).isEmpty) with _ | ⟨l0, ls⟩
    · rfl
    · rcases ls with _ | ⟨l1, ls'⟩ <;> rfl
  · intro txn
    simp [isValidTransaction]

/-- Witness for C9 (amended) at a concrete two-line CSV. -/
theorem c9_kept_iff_nonempty_date_and_amount_witness :
    parseCSV "Date,Outflow\n2024-03-15,50" =
      (parsedRows "Date,Outflow\n2024-03-15,50").filter isValidTransaction :=
  c9_kept_iff_nonempty_date_and_amount.1 "Date,Outflow\n2024-03-15,50"

/-- C9 counterexample: the data row has no successfully parsed date on
either field — "notadate" matches neither the `D/M/Y` recognizer nor the
ISO parser — yet `parseCSV` keeps it, because the code only tests the date
fields for non-emptiness. -/
theorem c9_unparsed_date_kept_counterexample :
    parseCSV "Date,Outflow\nnotadate,50" =
      [⟨"notadate", "", "", 50, 0, none, "", ""⟩] ∧
    matchDMY (trimChars ("notadate" : String).data) = none ∧
    jsDateParse (trimChars ("notadate" : String).data) = none ∧
    dayNumber "notadate" = none := by decide

theorem getD_replicate_empty (n i : ℕ) :
    (List.replicate n ("" : String)).getD i "" = "" := by
  induction n generalizing i with
  | zero => cases i <;> rfl
  | succ k ih => cases i with
    | zero => rfl
    | succ j => exact ih j

theorem getD_pad (vs : List String) : ∀ n i : ℕ, i < n →
    (vs.take n ++ List.replicate (n - vs.length) "").getD i "" = vs.getD i "" := by
  induction vs with
  | nil =>
    intro n i _
    simp only [List.take_nil, List.nil_append, List.length_nil, Nat.sub_zero]
    rw [getD_replicate_empty]
    cases i <;> rfl
  | cons v vs' ih =>
    intro n i h
    cases n with
    | zero => exact absurd h (Nat.not_lt_zero i)
    | succ n' =>
      have hs : (n' + 1) - (v :: vs').length = n' - vs'.length := by
        simp [List.length_cons]
      rw [List.take_succ_cons, hs]
      cases i with
      | zero => rfl
      | succ i' =>
        simp only [List.cons_append, List.getD_cons_succ]
        exact ih n' i' (Nat.lt_of_succ_lt_succ h)

theorem buildRecordAux_eq (hs : List String) :
    ∀ (j : ℕ) (vs ws : List String) (acc : List (String × String)),
      (∀ i, j ≤ i → i < j + hs.length → vs.getD i "" = ws.getD i "") →
      buildRecordAux hs j vs acc = buildRecordAux hs j ws acc := by
  induction hs with
  | nil => intro j vs ws acc _; rfl
  | cons hh ht ih =>
    intro j vs ws acc h
    unfold buildRecordAux
    rw [h j le_rfl (by simp [List.length_cons])]
    exact ih (j + 1) vs ws _ fun i h1 h2 =>
      h i (Nat.le_of_succ_le h1) (by simp [List.length_cons] at h2 ⊢; omega)

/-- C10: a data row shorter than the header list is padded with empty
strings and values beyond the header count are ignored — the record built
from a row depends only on the first `headers.length` values, with missing
positions read as "" — and ragged rows are normalized and kept when valid,
never an error. -/
theorem c10_ragged_rows :
    (∀ headers values : List String,
        buildRecord headers values =
          buildRecord headers (values.take headers.length ++
            List.replicate (headers.length - values.length) "")) ∧
    parseCSV "Date,Payee,Memo,Outflow,Inflow\n2024-03-15,Shop,,100" =
      [⟨"2024-03-15", "", "Shop", 100, 0, none, "", ""⟩] ∧
    parseCSV "Date,Outflow\n2024-03-15,50,extra,extra2" =
      [⟨"2024-03-15", "", "", 50, 0, none, "", ""⟩] := by
  refine ⟨?_, by decide, by decide⟩
  intro headers values
  unfold buildRecord
  exact buildRecordAux_eq headers 0 values _ []
    fun i _ h2 => (getD_pad values headers.length i (by simpa using h2)).symm

theorem isSep_not_digit (c : Char) (h : isSep c = true) : c.isDigit = false := by
  simp only [isSep, Bool.or_eq_true, beq_iff_eq] at h
  rcases h with (rfl | rfl) | rfl <;> decide

theorem isWs_eq_false_of_isDigit (c : Char) (h : c.isDigit = true) : isWs c = false := by
  rcases hw : isWs c
  · rfl
  · exfalso
    have hw' := hw
    simp only [isWs, Char.isWhitespace, Bool.or_eq_true, decide_eq_true_eq] at hw'
    rcases hw' with ((rfl | rfl) | rfl) | rfl <;> exact absurd h (by decide)

theorem isWs_eq_false_of_isSep (c : Char) (h : isSep c = true) : isWs c = false := by
  simp only [isSep, Bool.or_eq_true, beq_iff_eq] at h
  rcases h with (rfl | rfl) | rfl <;> decide

theorem dropWhile_isWs_eq_self (cs : List Char) (h : ∀ c ∈ cs, isWs c = false) :
    cs.dropWhile isWs = cs := by
  cases cs with
  | nil => rfl
  | cons a t => rw [List.dropWhile_cons, h a (List.mem_cons_self a t)]; simp

theorem trimChars_eq_self (cs : List Char) (h : ∀ c ∈ cs, isWs c = false) :
    trimChars cs = cs := by
  unfold trimChars
  rw [dropWhile_isWs_eq_self cs h,
    dropWhile_isWs_eq_self cs.reverse fun c hc => h c (List.mem_reverse.mp hc),
    List.reverse_reverse]

theorem splitDigitsN_exact (cs rest : List Char) (h : cs.all Char.isDigit = true) :
    splitDigitsN cs.length (cs ++ rest) = some (cs, rest) := by
  induction cs with
  | nil => rfl
  | cons c t ih =>
    rw [List.all_cons, Bool.and_eq_true] at h
    simp [splitDigitsN, h.1, ih h.2]

theorem splitDigitsN_two_stop (a s : Char) (rest : List Char) (ha : a.isDigit = true)
    (hs : s.isDigit = false) : splitDigitsN 2 (a :: s :: rest) = none := by
  simp [splitDigitsN, ha, hs]

theorem matchYearEnd_ok (ycs : List Char) (hy : ycs.all Char.isDigit = true)
    (hy2 : 2 ≤ ycs.length) (hy4 : ycs.length ≤ 4) : matchYearEnd ycs = some ycs := by
  unfold matchYearEnd
  rw [if_pos ⟨hy, hy2, hy4⟩]

theorem matchMonthYear_ok (mcs ycs : List Char) (s2 : Char)
    (hm : mcs.all Char.isDigit = true) (hm1 : 1 ≤ mcs.length) (hm2 : mcs.length ≤ 2)
    (hy : ycs.all Char.isDigit = true) (hy2 : 2 ≤ ycs.length) (hy4 : ycs.length ≤ 4)
    (hs2 : isSep s2 = true) :
    matchMonthYear (mcs ++ s2 :: ycs) = some (mcs, ycs) := by
  have hyend := matchYearEnd_ok ycs hy hy2 hy4
  rcases mcs with _ | ⟨m1, _ | ⟨m2, _ | ⟨m3, t⟩⟩⟩
  · simp at hm1
  · simp only [List.all_cons, List.all_nil, Bool.and_true] at hm
    have h2 : splitDigitsN 2 (m1 :: s2 :: ycs) = none :=
      splitDigitsN_two_stop m1 s2 ycs hm (isSep_not_digit s2 hs2)
    have h1 : splitDigitsN 1 (m1 :: (s2 :: ycs)) = some ([m1], s2 :: ycs) := by
      simpa using splitDigitsN_exact [m1] (s2 :: ycs) (by simp [hm])
    simp [matchMonthYear, h1, h2, hs2, hyend]
  · simp only [List.all_cons, List.all_nil, Bool.and_true, Bool.and_eq_true] at hm
    have h2 : splitDigitsN 2 (m1 :: m2 :: (s2 :: ycs)) = some ([m1, m2], s2 :: ycs) := by
      simpa using splitDigitsN_exact [m1, m2] (s2 :: ycs) (by simp [hm.1, hm.2])
    simp [matchMonthYear, h2, hs2, hyend]
  · exact absurd hm2 (by simp [List.length_cons])

theorem matchDMY_ok (dcs mcs ycs : List Char) (s1 s2 : Char)
    (hd : dcs.all Char.isDigit = true) (hd1 : 1 ≤ dcs.length) (hd2 : dcs.length ≤ 2)
    (hm : mcs.all Char.isDigit = true) (hm1 : 1 ≤ mcs.length) (hm2 : mcs.length ≤ 2)
    (hy : ycs.all Char.isDigit = true) (hy2 : 2 ≤ ycs.length) (hy4 : ycs.length ≤ 4)
    (hs1 : isSep s1 = true) (hs2 : isSep s2 = true) :
    matchDMY (dcs ++ s1 :: (mcs ++ s2 :: ycs)) = some (dcs, mcs, ycs) := by
  have hmy := matchMonthYear_ok mcs ycs s2 hm hm1 hm2 hy hy2 hy4 hs2
  rcases dcs with _ | ⟨d1, _ | ⟨d2, _ | ⟨d3, t⟩⟩⟩
  · simp at hd1
  · simp only [List.all_cons, List.all_nil, Bool.and_true] at hd
    have h2 : splitDigitsN 2 (d1 :: s1 :: (mcs ++ s2 :: ycs)) = none :=
      splitDigitsN_two_stop d1 s1 _ hd (isSep_not_digit s1 hs1)
    have h1 : splitDigitsN 1 (d1 :: (s1 :: (mcs ++ s2 :: ycs))) =
        some ([d1], s1 :: (mcs ++ s2 :: ycs)) := by
      simpa using splitDigitsN_exact [d1] (s1 :: (mcs ++ s2 :: ycs)) (by simp [hd])
    simp [matchDMY, h1, h2, hs1, hmy]
  · simp only [List.all_cons, List.all_nil, Bool.and_true, Bool.and_eq_true] at hd
    have h2 : splitDigitsN 2 (d1 :: d2 :: (s1 :: (mcs ++ s2 :: ycs))) =
        some ([d1, d2], s1 :: (mcs ++ s2 :: ycs)) := by
      simpa using splitDigitsN_exact [d1, d2] (s1 :: (mcs ++ s2 :: ycs)) (by simp [hd.1, hd.2])
    simp [matchDMY, h2, hs1, hmy]
  · exact absurd hd2 (by simp [List.length_cons])

/-- C7: every `D/M/Y`, `D-M-Y`, `D.M.Y` string with a 1–2 digit day and
month and a 2- or 4-digit year normalizes to the `YYYY-MM-DD` rendering
(year written in decimal, month and day zero-padded to two digits), with
two-digit years ≥ 70 mapped to the 1900s and all other two-digit years to
the 2000s; the separators may even be mixed, as in the source regex. -/
theorem c7_normalize_date_dmy (dcs mcs ycs : List Char) (s1 s2 : Char)
    (hd : dcs.all Char.isDigit = true) (hm : mcs.all Char.isDigit = true)
    (hy : ycs.all Char.isDigit = true)
    (hd1 : 1 ≤ dcs.length) (hd2 : dcs.length ≤ 2)
    (hm1 : 1 ≤ mcs.length) (hm2 : mcs.length ≤ 2)
    (hyl : ycs.length = 2 ∨ ycs.length = 4)
    (hs1 : isSep s1 = true) (hs2 : isSep s2 = true) :
    normalizeDate ⟨dcs ++ s1 :: (mcs ++ s2 :: ycs)⟩ =
      ⟨(Nat.repr (if ycs.length = 2 then
            (if 70 ≤ natOfDigits ycs then 1900 + natOfDigits ycs
             else 2000 + natOfDigits ycs)
          else natOfDigits ycs)).data ++ '-' :: (pad2 mcs ++ '-' :: pad2 dcs)⟩ ∧
    normalizeDate "15/03/2024" = "2024-03-15" ∧
    normalizeDate "15/03/24" = "2024-03-15" ∧
    normalizeDate "15/03/75" = "1975-03-15" := by
  refine ⟨?_, by decide, by decide, by decide⟩
  have hy2 : 2 ≤ ycs.length := by rcases hyl with h | h <;> omega
  have hy4 : ycs.length ≤ 4 := by rcases hyl with h | h <;> omega
  have hdig : ∀ (l : List Char), l.all Char.isDigit = true → ∀ c ∈ l, isWs c = false :=
    fun l hl c hc => isWs_eq_false_of_isDigit c (by
      rw [List.all_eq_true] at hl
      exact hl c hc)
  have hnws : ∀ c ∈ dcs ++ s1 :: (mcs ++ s2 :: ycs), isWs c = false := by
    intro c hc
    rcases List.mem_append.mp hc with h | h
    · exact hdig dcs hd c h
    · rcases List.mem_cons.mp h with rfl | h
      · exact isWs_eq_false_of_isSep c hs1
      · rcases List.mem_append.mp h with h | h
        · exact hdig mcs hm c h
        · rcases List.mem_cons.mp h with rfl | h
          · exact isWs_eq_false_of_isSep c hs2
          · exact hdig ycs hy c h
  have hne : dcs ++ s1 :: (mcs ++ s2 :: ycs) ≠ [] := by simp
  show normalizeDate ⟨dcs ++ s1 :: (mcs ++ s2 :: ycs)⟩ = _
  unfold normalizeDate
  rw [show (String.mk (dcs ++ s1 :: (mcs ++ s2 :: ycs))).data =
      dcs ++ s1 :: (mcs ++ s2 :: ycs) from rfl]
  rw [trimChars_eq_self _ hnws, if_neg hne,
    matchDMY_ok dcs mcs ycs s1 s2 hd hd1 hd2 hm hm1 hm2 hy hy2 hy4 hs1 hs2]

/-- Witness for C7 at the concrete input "5.3-24" (mixed separators,
single-digit day and month, two-digit year). -/
theorem c7_normalize_date_dmy_witness :
    (['5'] : List Char).all Char.isDigit = true ∧
    (['3'] : List Char).all Char.isDigit = true ∧
    (['2', '4'] : List Char).all Char.isDigit = true ∧
    isSep '.' = true ∧ isSep '-' = true ∧
    normalizeDate ⟨['5'] ++ '.' :: (['3'] ++ '-' :: ['2', '4'])⟩ =
      ⟨(Nat.repr (if (['2', '4'] : List Char).length = 2 then
            (if 70 ≤ natOfDigits ['2', '4'] then 1900 + natOfDigits ['2', '4']
             else 2000 + natOfDigits ['2', '4'])
          else natOfDigits ['2', '4'])).data ++ '-' :: (pad2 ['3'] ++ '-' :: pad2 ['5'])⟩ :=
  ⟨by decide, by decide, by decide, by decide, by decide,
    (c7_normalize_date_dmy ['5'] ['3'] ['2', '4'] '.' '-' (by decide) (by decide) (by decide)
      (by decide) (by decide) (by decide) (by decide) (Or.inl (by decide)) (by decide)
      (by decide)).1⟩

theorem reconcileLoop_cons_none (s : NormalizedTransaction)
    (rest pool : List NormalizedTransaction) (hf : findBestMatch s pool = none) :
    reconcileLoop (s :: rest) pool =
      ((reconcileLoop rest pool).1, (reconcileLoop rest pool).2.1,
        s :: (reconcileLoop rest pool).2.2.1, (reconcileLoop rest pool).2.2.2) := by
  simp only [reconcileLoop, hf]

theorem reconcileLoop_cons_junk (s : NormalizedTransaction)
    (rest pool : List NormalizedTransaction) (i d : ℕ)
    (hf : findBestMatch s pool = some (i, d)) (hg : pool[i]? = none) :
    reconcileLoop (s :: rest) pool =
      ((reconcileLoop rest pool).1, (reconcileLoop rest pool).2.1,
        s :: (reconcileLoop rest pool).2.2.1, (reconcileLoop rest pool).2.2.2) := by
  simp only [reconcileLoop, hf, hg]

theorem reconcileLoop_cons_found (s : NormalizedTransaction)
    (rest pool : List NormalizedTransaction) (i d : ℕ)
    (target : NormalizedTransaction)
    (hf : findBestMatch s pool = some (i, d)) (hg : pool[i]? = some target) :
    reconcileLoop (s :: rest) pool =
      (if d = 0 then
        (⟨s, target⟩ :: (reconcileLoop rest (pool.eraseIdx i)).1,
          (reconcileLoop rest (pool.eraseIdx i)).2.1,
          (reconcileLoop rest (pool.eraseIdx i)).2.2.1,
          (reconcileLoop rest (pool.eraseIdx i)).2.2.2)
      else
        ((reconcileLoop rest (pool.eraseIdx i)).1,
          ⟨s, target, d⟩ :: (reconcileLoop rest (pool.eraseIdx i)).2.1,
          (reconcileLoop rest (pool.eraseIdx i)).2.2.1,
          (reconcileLoop rest (pool.eraseIdx i)).2.2.2)) := by
  simp only [reconcileLoop, hf, hg]

theorem cons_eraseIdx_perm (l : List NormalizedTransaction) :
    ∀ (i : ℕ) (x : NormalizedTransaction), l[i]? = some x →
      List.Perm (x :: l.eraseIdx i) l := by
  induction l with
  | nil => intro i x h; simp at h
  | cons a t ih =>
    intro i x h
    cases i with
    | zero =>
      simp only [List.getElem?_cons_zero, Option.some.injEq] at h
      subst h
      simp [List.eraseIdx]
    | succ j =>
      simp only [List.getElem?_cons_succ] at h
      exact (List.Perm.swap a x (t.eraseIdx j)).trans ((ih j x h).cons a)

theorem perm_cons_third {α : Type} (A B C r : List α) (x : α)
    (h : List.Perm (A ++ B ++ C) r) : List.Perm (A ++ B ++ (x :: C)) (x :: r) :=
  List.Perm.trans List.perm_middle (h.cons x)

theorem perm_cons_second {α : Type} (A B C r : List α) (x : α)
    (h : List.Perm (A ++ B ++ C) r) : List.Perm (A ++ (x :: B) ++ C) (x :: r) := by
  have h' : List.Perm (A ++ (B ++ C)) r := by
    rw [← List.append_assoc]
    exact h
  have e1 : A ++ (x :: B) ++ C = A ++ (x :: (B ++ C)) := by simp
  rw [e1]
  exact List.Perm.trans List.perm_middle (h'.cons x)

/-- C1: reconciliation partitions both inputs — the sources of matched,
flagged and missing-from-target form a permutation of the source list, the
targets of matched, flagged and extra-in-target form a permutation of the
target list (so the matched/flagged pairing is a bijection onto the
consumed targets and no target is claimed twice), and the corresponding
counts add up to `sourceCount` and `targetCount`. -/
theorem c1_reconcile_partition (src tgt : List NormalizedTransaction) :
    List.Perm
      ((reconcile src tgt).matched.map MatchedTransaction.source ++
        (reconcile src tgt).flagged.map FlaggedTransaction.source ++
        (reconcile src tgt).missingFromTarget) src ∧
    List.Perm
      ((reconcile src tgt).matched.map MatchedTransaction.target ++
        (reconcile src tgt).flagged.map FlaggedTransaction.target ++
        (reconcile src tgt).extraInTarget) tgt ∧
    (reconcile src tgt).matched.length + (reconcile src tgt).flagged.length +
        (reconcile src tgt).missingFromTarget.length = (reconcile src tgt).sourceCount ∧
    (reconcile src tgt).matched.length + (reconcile src tgt).flagged.length +
        (reconcile src tgt).extraInTarget.length = (reconcile src tgt).targetCount ∧
    (reconcile src tgt).sourceCount = src.length ∧
    (reconcile src tgt).targetCount = tgt.length := by
  have main : ∀ (s : List NormalizedTransaction) (pool : List NormalizedTransaction),
      List.Perm
        ((reconcileLoop s pool).1.map MatchedTransaction.source ++
          (reconcileLoop s pool).2.1.map FlaggedTransaction.source ++
          (reconcileLoop s pool).2.2.1) s ∧
      List.Perm
        ((reconcileLoop s pool).1.map MatchedTransaction.target ++
          (reconcileLoop s pool).2.1.map FlaggedTransaction.target ++
          (reconcileLoop s pool).2.2.2) pool := by
    intro s
    induction s with
    | nil =>
      intro pool
      constructor
      · simp [reconcileLoop]
      · simp [reconcileLoop]
    | cons sourceTxn rest ih =>
      intro pool
      rcases hf : findBestMatch sourceTxn pool with _ | ⟨i, d⟩
      · obtain ⟨ihs, iht⟩ := ih pool
        rw [reconcileLoop_cons_none sourceTxn rest pool hf]
        exact ⟨perm_cons_third _ _ _ rest sourceTxn ihs, iht⟩
      · rcases hg : pool[i]? with _ | target
        · obtain ⟨ihs, iht⟩ := ih pool
          rw [reconcileLoop_cons_junk sourceTxn rest pool i d hf hg]
          exact ⟨perm_cons_third _ _ _ rest sourceTxn ihs, iht⟩
        · obtain ⟨ihs, iht⟩ := ih (pool.eraseIdx i)
          have hpool : List.Perm (target :: pool.eraseIdx i) pool :=
            cons_eraseIdx_perm pool i target hg
          rw [reconcileLoop_cons_found sourceTxn rest pool i d target hf hg]
          by_cases hd : d = 0
          · rw [if_pos hd]
            constructor
            · simpa using ihs.cons sourceTxn
            · refine List.Perm.trans ?_ hpool
              simpa using iht.cons target
          · rw [if_neg hd]
            constructor
            · simpa using perm_cons_second _ _ _ rest sourceTxn ihs
            · refine List.Perm.trans ?_ hpool
              simpa using perm_cons_second _ _ _ (pool.eraseIdx i) target iht
  obtain ⟨hs, ht⟩ := main src tgt
  refine ⟨hs, ht, ?_, ?_, rfl, rfl⟩
  · have hlen := hs.length_eq
    simp only [List.length_append, List.length_map] at hlen
    have em : (reconcile src tgt).matched = (reconcileLoop src tgt).1 := rfl
    have ef : (reconcile src tgt).flagged = (reconcileLoop src tgt).2.1 := rfl
    have e3 : (reconcile src tgt).missingFromTarget = (reconcileLoop src tgt).2.2.1 := rfl
    have e5 : (reconcile src tgt).sourceCount = src.length := rfl
    rw [em, ef, e3, e5]
    omega
  · have hlen := ht.length_eq
    simp only [List.length_append, List.length_map] at hlen
    have em : (reconcile src tgt).matched = (reconcileLoop src tgt).1 := rfl
    have ef : (reconcile src tgt).flagged = (reconcileLoop src tgt).2.1 := rfl
    have e4 : (reconcile src tgt).extraInTarget = (reconcileLoop src tgt).2.2.2 := rfl
    have e6 : (reconcile src tgt).targetCount = tgt.length := rfl
    rw [em, ef, e4, e6]
    omega

theorem considerCandidate_cases (s c : NormalizedTransaction) (i : ℕ)
    (best : Option (ℕ × ℕ)) :
    considerCandidate (getEffectiveAmount s) (getEffectiveDate s) c i best = best ∨
      ∃ d, considerCandidate (getEffectiveAmount s) (getEffectiveDate s) c i best =
          some (i, d) ∧ matchCandidate s c d := by
  unfold considerCandidate
  by_cases h1 : getEffectiveDate c = ""
  · rw [if_pos h1]; exact Or.inl rfl
  · rw [if_neg h1]
    by_cases h2 : amountsMatch (getEffectiveAmount s) (getEffectiveAmount c)
    · rw [if_pos h2]
      rcases h3 : daysBetween (getEffectiveDate s) (getEffectiveDate c) with _ | d
      · exact Or.inl rfl
      · dsimp only
        by_cases h4 : DATE_TOLERANCE_DAYS < d
        · rw [if_pos h4]; exact Or.inl rfl
        · rw [if_neg h4]
          rcases best with _ | ⟨j, bd⟩
          · exact Or.inr ⟨d, rfl, h1, h2, h3, Nat.not_lt.mp h4⟩
          · dsimp only
            by_cases h5 : d < bd
            · rw [if_pos h5]; exact Or.inr ⟨d, rfl, h1, h2, h3, Nat.not_lt.mp h4⟩
            · rw [if_neg h5]; exact Or.inl rfl
    · rw [if_neg h2]; exact Or.inl rfl

theorem considerCandidate_none (s c : NormalizedTransaction) (i : ℕ)
    (best : Option (ℕ × ℕ))
    (h : considerCandidate (getEffectiveAmount s) (getEffectiveDate s) c i best = none) :
    best = none ∧ ∀ d, ¬ matchCandidate s c d := by
  unfold considerCandidate at h
  by_cases h1 : getEffectiveDate c = ""
  · rw [if_pos h1] at h
    exact ⟨h, fun d hm => hm.1 h1⟩
  · rw [if_neg h1] at h
    by_cases h2 : amountsMatch (getEffectiveAmount s) (getEffectiveAmount c)
    · rw [if_pos h2] at h
      rcases h3 : daysBetween (getEffectiveDate s) (getEffectiveDate c) with _ | d0
      · rw [h3] at h
        refine ⟨h, fun d hm => ?_⟩
        obtain ⟨-, -, hds, -⟩ := hm
        rw [h3] at hds
        exact Option.noConfusion hds
      · rw [h3] at h
        dsimp only at h
        by_cases h4 : DATE_TOLERANCE_DAYS < d0
        · rw [if_pos h4] at h
          refine ⟨h, fun d hm => ?_⟩
          obtain ⟨-, -, hds, hd2⟩ := hm
          rw [h3] at hds
          simp only [Option.some.injEq] at hds
          omega
        · rw [if_neg h4] at h
          rcases best with _ | ⟨j, bd⟩
          · simp at h
          · dsimp only at h
            by_cases h5 : d0 < bd
            · rw [if_pos h5] at h; simp at h
            · rw [if_neg h5] at h; simp at h
    · rw [if_neg h2] at h
      exact ⟨h, fun d hm => h2 hm.2.1⟩

theorem considerCandidate_bound (s c : NormalizedTransaction) (i : ℕ)
    (best : Option (ℕ × ℕ)) (hb : ∀ j bd, best = some (j, bd) → j < i) :
    ∀ j bd, considerCandidate (getEffectiveAmount s) (getEffectiveDate s) c i best =
        some (j, bd) → j < i + 1 := by
  intro j bd h
  rcases considerCandidate_cases s c i best with hc | ⟨d, hc, -⟩
  · rw [hc] at h
    exact Nat.lt_succ_of_lt (hb j bd h)
  · rw [hc] at h
    simp only [Option.some.injEq, Prod.mk.injEq] at h
    omega

theorem considerCandidate_improve (s c : NormalizedTransaction) (i jb db : ℕ) :
    ∃ jr dr,
      considerCandidate (getEffectiveAmount s) (getEffectiveDate s) c i (some (jb, db)) =
        some (jr, dr) ∧
      (dr < db ∨
        considerCandidate (getEffectiveAmount s) (getEffectiveDate s) c i (some (jb, db)) =
          some (jb, db)) := by
  unfold considerCandidate
  by_cases h1 : getEffectiveDate c = ""
  · rw [if_pos h1]; exact ⟨jb, db, rfl, Or.inr rfl⟩
  · rw [if_neg h1]
    by_cases h2 : amountsMatch (getEffectiveAmount s) (getEffectiveAmount c)
    · rw [if_pos h2]
      rcases h3 : daysBetween (getEffectiveDate s) (getEffectiveDate c) with _ | d0
      · exact ⟨jb, db, rfl, Or.inr rfl⟩
      · dsimp only
        by_cases h4 : DATE_TOLERANCE_DAYS < d0
        · rw [if_pos h4]; exact ⟨jb, db, rfl, Or.inr rfl⟩
        · rw [if_neg h4]
          by_cases h5 : d0 < db
          · rw [if_pos h5]; exact ⟨i, d0, rfl, Or.inl h5⟩
          · rw [if_neg h5]; exact ⟨jb, db, rfl, Or.inr rfl⟩
    · rw [if_neg h2]; exact ⟨jb, db, rfl, Or.inr rfl⟩

theorem considerCandidate_qualify (s c : NormalizedTransaction) (i : ℕ)
    (best : Option (ℕ × ℕ)) (hb : ∀ jb db, best = some (jb, db) → jb < i)
    (d' : ℕ) (hm : matchCandidate s c d') :
    ∃ jr dr,
      considerCandidate (getEffectiveAmount s) (getEffectiveDate s) c i best =
        some (jr, dr) ∧ dr ≤ d' ∧ (dr = d' → jr ≤ i) := by
  obtain ⟨h1, h2, h3, h4⟩ := hm
  unfold considerCandidate
  rw [if_neg h1, if_pos h2, h3]
  dsimp only
  rw [if_neg (Nat.not_lt.mpr h4)]
  rcases best with _ | ⟨jb, db⟩
  · exact ⟨i, d', rfl, le_rfl, fun _ => le_rfl⟩
  · dsimp only
    have hjb : jb < i := hb jb db rfl
    by_cases h5 : d' < db
    · rw [if_pos h5]
      exact ⟨i, d', rfl, le_rfl, fun _ => le_rfl⟩
    · rw [if_neg h5]
      exact ⟨jb, db, rfl, Nat.not_lt.mp h5, fun _ => hjb.le⟩

theorem findBestAux_origin (s : NormalizedTransaction) :
    ∀ (pool : List NormalizedTransaction) (i0 : ℕ) (best : Option (ℕ × ℕ)),
      findBestAux (getEffectiveAmount s) (getEffectiveDate s) pool i0 best = best ∨
        ∃ k, ∃ hk : k < pool.length, ∃ d,
          findBestAux (getEffectiveAmount s) (getEffectiveDate s) pool i0 best =
            some (i0 + k, d) ∧
          matchCandidate s (pool.get ⟨k, hk⟩) d := by
  intro pool
  induction pool with
  | nil => intro i0 best; exact Or.inl rfl
  | cons c rest ih =>
    intro i0 best
    rw [findBestAux]
    rcases ih (i0 + 1)
        (considerCandidate (getEffectiveAmount s) (getEffectiveDate s) c i0 best) with
      hr | ⟨k, hk, d, hr, hm⟩
    · rcases considerCandidate_cases s c i0 best with hc | ⟨d, hc, hm⟩
      · exact Or.inl (hr.trans hc)
      · refine Or.inr ⟨0, by simp, d, ?_, hm⟩
        rw [Nat.add_zero]
        exact hr.trans hc
    · refine Or.inr ⟨k + 1, by simpa using Nat.succ_lt_succ hk, d, ?_, hm⟩
      have harith : i0 + 1 + k = i0 + (k + 1) := by omega
      rw [← harith]
      exact hr

theorem findBestAux_none (s : NormalizedTransaction) :
    ∀ (pool : List NormalizedTransaction) (i0 : ℕ) (best : Option (ℕ × ℕ)),
      findBestAux (getEffectiveAmount s) (getEffectiveDate s) pool i0 best = none →
        best = none ∧ ∀ c ∈ pool, ∀ d, ¬ matchCandidate s c d := by
  intro pool
  induction pool with
  | nil => intro i0 best h; exact ⟨h, by simp⟩
  | cons c rest ih =>
    intro i0 best h
    rw [findBestAux] at h
    obtain ⟨hb', hrest⟩ := ih (i0 + 1) _ h
    obtain ⟨hbest, hcfail⟩ := considerCandidate_none s c i0 best hb'
    refine ⟨hbest, ?_⟩
    intro c' hc' d
    rcases List.mem_cons.mp hc' with rfl | hmem
    · exact hcfail d
    · exact hrest c' hmem d

theorem findBestAux_improve (s : NormalizedTransaction) :
    ∀ (pool : List NormalizedTransaction) (i0 jb db : ℕ),
      ∃ jr dr,
        findBestAux (getEffectiveAmount s) (getEffectiveDate s) pool i0 (some (jb, db)) =
          some (jr, dr) ∧
        (dr < db ∨
          findBestAux (getEffectiveAmount s) (getEffectiveDate s) pool i0 (some (jb, db)) =
            some (jb, db)) := by
  intro pool
  induction pool with
  | nil => intro i0 jb db; exact ⟨jb, db, rfl, Or.inr rfl⟩
  | cons c rest ih =>
    intro i0 jb db
    rw [findBestAux]
    obtain ⟨j1, d1, hc, himp⟩ := considerCandidate_improve s c i0 jb db
    rw [hc]
    obtain ⟨jr, dr, hr, himp2⟩ := ih (i0 + 1) j1 d1
    refine ⟨jr, dr, hr, ?_⟩
    rcases himp2 with h | h
    · rcases himp with h' | h'
      · exact Or.inl (h.trans h')
      · have he := hc.symm.trans h'
        simp only [Option.some.injEq, Prod.mk.injEq] at he
        exact Or.inl (he.2 ▸ h)
    · rcases himp with h' | h'
      · have he := hr.symm.trans h
        simp only [Option.some.injEq, Prod.mk.injEq] at he
        exact Or.inl (by omega)
      · exact Or.inr (h.trans (hc.symm.trans h'))

theorem findBestAux_minimal (s : NormalizedTransaction) :
    ∀ (pool : List NormalizedTransaction) (i0 : ℕ) (best : Option (ℕ × ℕ)),
      (∀ jb db, best = some (jb, db) → jb < i0) →
      ∀ k (hk : k < pool.length) (d' : ℕ), matchCandidate s (pool.get ⟨k, hk⟩) d' →
        ∃ jr dr,
          findBestAux (getEffectiveAmount s) (getEffectiveDate s) pool i0 best =
            some (jr, dr) ∧ dr ≤ d' ∧ (dr = d' → jr ≤ i0 + k) := by
  intro pool
  induction pool with
  | nil => intro i0 best hb k hk; exact absurd hk (by simp)
  | cons c rest ih =>
    intro i0 best hb k hk d' hm
    rw [findBestAux]
    cases k with
    | zero =>
      obtain ⟨j1, d1, hc, hle, htie⟩ := considerCandidate_qualify s c i0 best hb d' hm
      rw [hc]
      obtain ⟨jr, dr, hr, himp⟩ := findBestAux_improve s rest (i0 + 1) j1 d1
      refine ⟨jr, dr, hr, ?_, ?_⟩
      · rcases himp with h | h
        · omega
        · have he := hr.symm.trans h
          simp only [Option.some.injEq, Prod.mk.injEq] at he
          omega
      · intro hdr
        rcases himp with h | h
        · omega
        · have he := hr.symm.trans h
          simp only [Option.some.injEq, Prod.mk.injEq] at he
          obtain ⟨hej, hed⟩ := he
          have hj1 : j1 ≤ i0 := htie (by omega)
          omega
    | succ k' =>
      have hb' := considerCandidate_bound s c i0 best hb
      have hk' : k' < rest.length := by
        simpa using Nat.lt_of_succ_lt_succ hk
      have hm' : matchCandidate s (rest.get ⟨k', hk'⟩) d' := hm
      obtain ⟨jr, dr, hr, hle, htie⟩ := ih (i0 + 1) _ hb' k' hk' d' hm'
      refine ⟨jr, dr, hr, hle, fun h => ?_⟩
      have := htie h
      omega

theorem findBestMatch_eq_aux (s : NormalizedTransaction)
    (pool : List NormalizedTransaction)
    (hd : getEffectiveDate s ≠ "") (ha : getEffectiveAmount s ≠ 0) :
    findBestMatch s pool =
      findBestAux (getEffectiveAmount s) (getEffectiveDate s) pool 0 none := by
  unfold findBestMatch
  rw [if_neg (not_or.mpr ⟨hd, ha⟩)]

/-- C2: for a source transaction with a non-empty effective date and
non-zero effective amount, `findBestMatch` selects a qualifying pool
candidate (amount within tolerance, parseable date at most 2 days away)
with the smallest day difference, ties broken by the earliest pool
position; when no candidate qualifies it returns nothing; and the
reconciliation step removes the selected candidate from the pool at its
index immediately, classifying the pair as matched when the day difference
is 0 and as flagged carrying the difference (necessarily 1 or 2)
otherwise. -/
theorem c2_best_match_selection (s : NormalizedTransaction)
    (pool : List NormalizedTransaction)
    (hd : getEffectiveDate s ≠ "") (ha : getEffectiveAmount s ≠ 0) :
    (∀ i d, findBestMatch s pool = some (i, d) →
        ∃ hi : i < pool.length,
          matchCandidate s (pool.get ⟨i, hi⟩) d ∧
          ∀ k (hk : k < pool.length) (d' : ℕ), matchCandidate s (pool.get ⟨k, hk⟩) d' →
            d ≤ d' ∧ (d' = d → i ≤ k)) ∧
    (findBestMatch s pool = none → ∀ c ∈ pool, ∀ d, ¬ matchCandidate s c d) ∧
    (∀ (rest : List NormalizedTransaction) i d, findBestMatch s pool = some (i, d) →
        d ≤ DATE_TOLERANCE_DAYS ∧ (d ≠ 0 → d = 1 ∨ d = 2) ∧
        ∃ hi : i < pool.length,
          reconcileLoop (s :: rest) pool =
            (if d = 0 then
              (⟨s, pool.get ⟨i, hi⟩⟩ :: (reconcileLoop rest (pool.eraseIdx i)).1,
                (reconcileLoop rest (pool.eraseIdx i)).2.1,
                (reconcileLoop rest (pool.eraseIdx i)).2.2.1,
                (reconcileLoop rest (pool.eraseIdx i)).2.2.2)
            else
              ((reconcileLoop rest (pool.eraseIdx i)).1,
                ⟨s, pool.get ⟨i, hi⟩, d⟩ :: (reconcileLoop rest (pool.eraseIdx i)).2.1,
                (reconcileLoop rest (pool.eraseIdx i)).2.2.1,
                (reconcileLoop rest (pool.eraseIdx i)).2.2.2))) := by
  have heq := findBestMatch_eq_aux s pool hd ha
  have part1 : ∀ i d, findBestMatch s pool = some (i, d) →
      ∃ hi : i < pool.length,
        matchCandidate s (pool.get ⟨i, hi⟩) d ∧
        ∀ k (hk : k < pool.length) (d' : ℕ), matchCandidate s (pool.get ⟨k, hk⟩) d' →
          d ≤ d' ∧ (d' = d → i ≤ k) := by
    intro i d hf
    rw [heq] at hf
    rcases findBestAux_origin s pool 0 none with h | ⟨k, hk, d0, h, hm⟩
    · rw [hf] at h
      exact absurd h (by simp)
    · rw [hf] at h
      simp only [Option.some.injEq, Prod.mk.injEq, Nat.zero_add] at h
      obtain ⟨rfl, rfl⟩ := h
      refine ⟨hk, hm, ?_⟩
      intro k' hk' d' hm'
      obtain ⟨jr, dr, hr, hle, htie⟩ :=
        findBestAux_minimal s pool 0 none (fun jb db hbad => by simp at hbad) k' hk' d' hm'
      have he := hr.symm.trans hf
      simp only [Option.some.injEq, Prod.mk.injEq] at he
      obtain ⟨hej, hed⟩ := he
      constructor
      · omega
      · intro hde
        have := htie (by omega)
        omega
  refine ⟨part1, ?_, ?_⟩
  · intro hf
    rw [heq] at hf
    exact (findBestAux_none s pool 0 none hf).2
  · intro rest i d hf
    obtain ⟨hi, hm, -⟩ := part1 i d hf
    have hd2 : d ≤ DATE_TOLERANCE_DAYS := hm.2.2.2
    have htol : d ≤ 2 := hd2
    refine ⟨hd2, fun hne => by omega, hi, ?_⟩
    have hg : pool[i]? = some (pool.get ⟨i, hi⟩) := by
      rw [List.getElem?_eq_getElem hi]
      simp [List.get_eq_getElem]
    exact reconcileLoop_cons_found s rest pool i d (pool.get ⟨i, hi⟩) hf hg

/-- Witness for C2 at a concrete source transaction and the empty pool:
the hypotheses hold and the matcher reports no candidate, so nothing in
the (empty) pool qualifies. -/
theorem c2_best_match_selection_witness :
    getEffectiveDate ⟨"", "2024-03-15", "x", 100, 0, none, "", ""⟩ ≠ "" ∧
    getEffectiveAmount ⟨"", "2024-03-15", "x", 100, 0, none, "", ""⟩ ≠ 0 ∧
    (∀ c ∈ ([] : List NormalizedTransaction), ∀ d,
        ¬ matchCandidate ⟨"", "2024-03-15", "x", 100, 0, none, "", ""⟩ c d) :=
  ⟨by decide, by decide,
    (c2_best_match_selection ⟨"", "2024-03-15", "x", 100, 0, none, "", ""⟩ []
      (by decide) (by decide)).2.1 rfl⟩

theorem parseCSVLineAux_bare_step (c : Char) (rest cur : List Char)
    (h1 : ¬ c = '"') (h2 : ¬ c = ',') :
    parseCSVLineAux (c :: rest) cur false = parseCSVLineAux rest (c :: cur) false := by
  rw [parseCSVLineAux.eq_def]
  split <;> simp_all

theorem parseCSVLineAux_quote_step (c : Char) (rest cur : List Char) (h1 : ¬ c = '"') :
    parseCSVLineAux (c :: rest) cur true = parseCSVLineAux rest (c :: cur) true := by
  rw [parseCSVLineAux.eq_def]
  split <;> simp_all

theorem parseCSVLineAux_quote_close (c : Char) (rest cur : List Char) (h1 : ¬ c = '"') :
    parseCSVLineAux ('"' :: c :: rest) cur true = parseCSVLineAux (c :: rest) cur false := by
  rw [parseCSVLineAux.eq_def]
  split <;> simp_all
  rename_i hne heq
  exact absurd heq.1.symm hne

theorem parseCSVLineAux_open_quote (rest cur : List Char) :
    parseCSVLineAux ('"' :: rest) cur false = parseCSVLineAux rest cur true := by
  rw [parseCSVLineAux.eq_def]
  split <;> simp_all
  rename_i hq hc heq
  exact absurd heq.1.symm hq

theorem parseCSVLineAux_bare (v : List Char) (hq : '"' ∉ v) (hc : ',' ∉ v) :
    ∀ rest cur, parseCSVLineAux (v ++ rest) cur false =
      parseCSVLineAux rest (v.reverse ++ cur) false := by
  induction v with
  | nil => intro rest cur; simp
  | cons a t ih =>
    intro rest cur
    have ha1 : ¬ a = '"' := fun h => hq (h ▸ List.mem_cons_self a t)
    have ha2 : ¬ a = ',' := fun h => hc (h ▸ List.mem_cons_self a t)
    rw [List.cons_append, parseCSVLineAux_bare_step a (t ++ rest) cur ha1 ha2,
      ih (fun h => hq (List.mem_cons_of_mem a h)) (fun h => hc (List.mem_cons_of_mem a h))]
    simp

theorem parseCSVLineAux_quoted (v : List Char) :
    ∀ (c2 : Char) (rest2 cur : List Char), ¬ c2 = '"' →
      parseCSVLineAux (doubleQuotes v ++ '"' :: c2 :: rest2) cur true =
        parseCSVLineAux (c2 :: rest2) (v.reverse ++ cur) false := by
  induction v with
  | nil =>
    intro c2 rest2 cur h
    simpa using parseCSVLineAux_quote_close c2 rest2 cur h
  | cons a t ih =>
    intro c2 rest2 cur h
    by_cases ha : a = '"'
    · subst ha
      show parseCSVLineAux (('"' :: '"' :: doubleQuotes t) ++ _) cur true = _
      rw [List.cons_append, List.cons_append]
      rw [show parseCSVLineAux ('"' :: '"' :: (doubleQuotes t ++ '"' :: c2 :: rest2)) cur true =
        parseCSVLineAux (doubleQuotes t ++ '"' :: c2 :: rest2) ('"' :: cur) true from rfl]
      rw [ih c2 rest2 ('"' :: cur) h]
      simp
    · show parseCSVLineAux ((if a = '"' then _ else a :: doubleQuotes t) ++ _) cur true = _
      rw [if_neg ha, List.cons_append,
        parseCSVLineAux_quote_step a (doubleQuotes t ++ '"' :: c2 :: rest2) cur ha,
        ih c2 rest2 (a :: cur) h]
      simp

theorem parseCSVLineAux_quoted_end (v : List Char) :
    ∀ cur, parseCSVLineAux (doubleQuotes v ++ ['"']) cur true = [⟨cur.reverse ++ v⟩] := by
  induction v with
  | nil => intro cur; simp [parseCSVLineAux]
  | cons a t ih =>
    intro cur
    by_cases ha : a = '"'
    · subst ha
      show parseCSVLineAux (('"' :: '"' :: doubleQuotes t) ++ _) cur true = _
      rw [List.cons_append, List.cons_append]
      rw [show parseCSVLineAux ('"' :: '"' :: (doubleQuotes t ++ ['"'])) cur true =
        parseCSVLineAux (doubleQuotes t ++ ['"']) ('"' :: cur) true from rfl]
      rw [ih ('"' :: cur)]
      simp
    · show parseCSVLineAux ((if a = '"' then _ else a :: doubleQuotes t) ++ _) cur true = _
      rw [if_neg ha, List.cons_append,
        parseCSVLineAux_quote_step a (doubleQuotes t ++ ['"']) cur ha, ih (a :: cur)]
      simp

theorem parseCSVLine_field_comma (v : String) (rest : List Char) :
    parseCSVLineAux ((escapeCSV v).data ++ ',' :: rest) [] false =
      v :: parseCSVLineAux rest [] false := by
  unfold escapeCSV
  split_ifs with h
  · show parseCSVLineAux (('"' :: (doubleQuotes v.data ++ ['"'])) ++ ',' :: rest) [] false = _
    rw [List.cons_append, parseCSVLineAux_open_quote]
    rw [show (doubleQuotes v.data ++ ['"']) ++ ',' :: rest =
      doubleQuotes v.data ++ '"' :: ',' :: rest from by simp]
    rw [parseCSVLineAux_quoted v.data ',' rest [] (by decide)]
    have hstep : parseCSVLineAux (',' :: rest) (v.data.reverse ++ []) false =
        (⟨(v.data.reverse ++ []).reverse⟩ : String) :: parseCSVLineAux rest [] false := rfl
    rw [hstep]
    simp
  · push_neg at h
    rw [parseCSVLineAux_bare v.data h.1 h.2.1]
    have hstep : parseCSVLineAux (',' :: rest) (v.data.reverse ++ []) false =
        (⟨(v.data.reverse ++ []).reverse⟩ : String) :: parseCSVLineAux rest [] false := rfl
    rw [hstep]
    simp

theorem parseCSVLine_field_last (v : String) :
    parseCSVLineAux (escapeCSV v).data [] false = [v] := by
  unfold escapeCSV
  split_ifs with h
  · show parseCSVLineAux ('"' :: (doubleQuotes v.data ++ ['"'])) [] false = _
    rw [parseCSVLineAux_open_quote, parseCSVLineAux_quoted_end v.data []]
    simp
  · push_neg at h
    rw [show (v.data : List Char) = v.data ++ [] from (List.append_nil _).symm,
      parseCSVLineAux_bare v.data h.1 h.2.1]
    have hstep : parseCSVLineAux [] (v.data.reverse ++ []) false =
        [(⟨(v.data.reverse ++ []).reverse⟩ : String)] := rfl
    rw [hstep]
    simp

theorem parseCSVLine_rowLine (r : YnabRow) :
    parseCSVLine (rowLine r).data = [r.date, r.payee, r.memo, r.outflow, r.inflow] := by
  show parseCSVLineAux (joinChar ','
    [(escapeCSV r.date).data, (escapeCSV r.payee).data, (escapeCSV r.memo).data,
     (escapeCSV r.outflow).data, (escapeCSV r.inflow).data]) [] false = _
  rw [show joinChar ','
      [(escapeCSV r.date).data, (escapeCSV r.payee).data, (escapeCSV r.memo).data,
       (escapeCSV r.outflow).data, (escapeCSV r.inflow).data] =
      (escapeCSV r.date).data ++ ',' :: ((escapeCSV r.payee).data ++ ',' ::
        ((escapeCSV r.memo).data ++ ',' :: ((escapeCSV r.outflow).data ++ ',' ::
          (escapeCSV r.inflow).data))) from rfl]
  rw [parseCSVLine_field_comma, parseCSVLine_field_comma, parseCSVLine_field_comma,
    parseCSVLine_field_comma, parseCSVLine_field_last]

theorem splitLinesAux_step (c : Char) (rest cur : List Char)
    (h1 : ¬ c = '\n') (h2 : ¬ c = '\r') :
    splitLinesAux (c :: rest) cur = splitLinesAux rest (c :: cur) := by
  rw [splitLinesAux.eq_def]
  split
  · simp_all
  · rename_i heq
    rw [List.cons.injEq] at heq
    exact absurd heq.1 h2
  · rename_i heq
    rw [List.cons.injEq] at heq
    exact absurd heq.1 h1
  · rename_i heq
    rw [List.cons.injEq] at heq
    rw [heq.1, heq.2]

theorem splitLinesAux_line (l : List Char) (hl : ∀ c ∈ l, ¬ c = '\n' ∧ ¬ c = '\r') :
    ∀ rest cur, splitLinesAux (l ++ '\n' :: rest) cur =
      (cur.reverse ++ l) :: splitLinesAux rest [] := by
  induction l with
  | nil => intro rest cur; simp [splitLinesAux]
  | cons a t ih =>
    intro rest cur
    obtain ⟨ha1, ha2⟩ := hl a (List.mem_cons_self a t)
    rw [List.cons_append, splitLinesAux_step a (t ++ '\n' :: rest) cur ha1 ha2,
      ih (fun c hc => hl c (List.mem_cons_of_mem a hc)) rest (a :: cur)]
    simp

theorem splitLinesAux_last (l : List Char) (hl : ∀ c ∈ l, ¬ c = '\n' ∧ ¬ c = '\r') :
    ∀ cur, splitLinesAux l cur = [cur.reverse ++ l] := by
  induction l with
  | nil => intro cur; simp [splitLinesAux]
  | cons a t ih =>
    intro cur
    obtain ⟨ha1, ha2⟩ := hl a (List.mem_cons_self a t)
    rw [splitLinesAux_step a t cur ha1 ha2,
      ih (fun c hc => hl c (List.mem_cons_of_mem a hc)) (a :: cur)]
    simp

theorem splitLines_join (ls : List (List Char))
    (h : ∀ l ∈ ls, ∀ c ∈ l, ¬ c = '\n' ∧ ¬ c = '\r') (hne : ls ≠ []) :
    splitLines (joinChar '\n' ls) = ls := by
  induction ls with
  | nil => exact absurd rfl hne
  | cons l rest ih =>
    cases rest with
    | nil =>
      show splitLinesAux l [] = [l]
      simpa using splitLinesAux_last l (h l (List.mem_cons_self l [])) []
    | cons l2 rest2 =>
      show splitLinesAux (l ++ '\n' :: joinChar '\n' (l2 :: rest2)) [] = l :: l2 :: rest2
      rw [splitLinesAux_line l (h l (List.mem_cons_self l _)) _ []]
      have := ih (fun l' hl' => h l' (List.mem_cons_of_mem l hl')) (by simp)
      simp only [List.reverse_nil, List.nil_append]
      rw [show splitLinesAux (joinChar '\n' (l2 :: rest2)) [] =
        splitLines (joinChar '\n' (l2 :: rest2)) from rfl, this]

theorem trimChars_ne_nil (l : List Char) (c : Char) (hc : c ∈ l) (hw : isWs c = false) :
    trimChars l ≠ [] := by
  intro h
  unfold trimChars at h
  rw [List.reverse_eq_nil_iff, List.dropWhile_eq_nil_iff] at h
  have h2 : ∀ x ∈ l.dropWhile isWs, isWs x = true := by
    intro x hx
    exact h x (List.mem_reverse.mpr hx)
  have hall : ∀ x ∈ l, isWs x = true := by
    intro x hx
    rw [← List.takeWhile_append_dropWhile isWs l] at hx
    rcases List.mem_append.mp hx with h' | h'
    · exact List.mem_takeWhile_imp h'
    · exact h2 x h'
  rw [hall c hc] at hw
  exact Bool.noConfusion hw

theorem mem_doubleQuotes (v : List Char) (c : Char) :
    c ∈ doubleQuotes v → c ∈ v ∨ c = '"' := by
  induction v with
  | nil => intro h; simp [doubleQuotes] at h
  | cons a t ih =>
    intro h
    unfold doubleQuotes at h
    by_cases ha : a = '"'
    · rw [if_pos ha] at h
      rcases List.mem_cons.mp h with rfl | h
      · exact Or.inr rfl
      · rcases List.mem_cons.mp h with rfl | h
        · exact Or.inr rfl
        · rcases ih h with h' | h'
          · exact Or.inl (List.mem_cons_of_mem a h')
          · exact Or.inr h'
    · rw [if_neg ha] at h
      rcases List.mem_cons.mp h with rfl | h
      · exact Or.inl (List.mem_cons_self c t)
      · rcases ih h with h' | h'
        · exact Or.inl (List.mem_cons_of_mem a h')
        · exact Or.inr h'

theorem mem_escapeCSV (v : String) (c : Char) :
    c ∈ (escapeCSV v).data → c ∈ v.data ∨ c = '"' := by
  unfold escapeCSV
  split_ifs with h
  · intro hc
    rcases List.mem_cons.mp hc with rfl | hc
    · exact Or.inr rfl
    · rcases List.mem_append.mp hc with hc | hc
      · exact mem_doubleQuotes v.data c hc
      · rcases List.mem_cons.mp hc with rfl | hc
        · exact Or.inr rfl
        · simp at hc
  · exact Or.inl

theorem mem_joinChar (sep : Char) (ls : List (List Char)) (c : Char) :
    c ∈ joinChar sep ls → (∃ l ∈ ls, c ∈ l) ∨ c = sep := by
  induction ls with
  | nil => intro h; simp [joinChar] at h
  | cons l rest ih =>
    cases rest with
    | nil =>
      intro h
      exact Or.inl ⟨l, List.mem_cons_self l [], h⟩
    | cons l2 rest2 =>
      intro h
      rcases List.mem_append.mp h with h' | h'
      · exact Or.inl ⟨l, List.mem_cons_self l _, h'⟩
      · rcases List.mem_cons.mp h' with rfl | h'
        · exact Or.inr rfl
        · rcases ih h' with ⟨l', hl', hc⟩ | h''
          · exact Or.inl ⟨l', List.mem_cons_of_mem l hl', hc⟩
          · exact Or.inr h''

theorem rowLine_no_break (r : YnabRow) (h : canonicalRow r) :
    ∀ c ∈ (rowLine r).data, ¬ c = '\n' ∧ ¬ c = '\r' := by
  obtain ⟨hd, hp, hm, ho, hi, -⟩ := h
  intro c hc
  rcases mem_joinChar ',' _ c hc with ⟨l, hl, hcl⟩ | rfl
  · have hfield : c ∈ r.date.data ∨ c ∈ r.payee.data ∨ c ∈ r.memo.data ∨
        c ∈ r.outflow.data ∨ c ∈ r.inflow.data ∨ c = '"' := by
      simp only [List.mem_cons, List.not_mem_nil, or_false] at hl
      rcases hl with rfl | rfl | rfl | rfl | rfl
      · rcases mem_escapeCSV _ c hcl with h' | h'
        · exact Or.inl h'
        · exact Or.inr (Or.inr (Or.inr (Or.inr (Or.inr h'))))
      · rcases mem_escapeCSV _ c hcl with h' | h'
        · exact Or.inr (Or.inl h')
        · exact Or.inr (Or.inr (Or.inr (Or.inr (Or.inr h'))))
      · rcases mem_escapeCSV _ c hcl with h' | h'
        · exact Or.inr (Or.inr (Or.inl h'))
        · exact Or.inr (Or.inr (Or.inr (Or.inr (Or.inr h'))))
      · rcases mem_escapeCSV _ c hcl with h' | h'
        · exact Or.inr (Or.inr (Or.inr (Or.inl h')))
        · exact Or.inr (Or.inr (Or.inr (Or.inr (Or.inr h'))))
      · rcases mem_escapeCSV _ c hcl with h' | h'
        · exact Or.inr (Or.inr (Or.inr (Or.inr (Or.inl h'))))
        · exact Or.inr (Or.inr (Or.inr (Or.inr (Or.inr h'))))
    rcases hfield with h' | h' | h' | h' | h' | rfl
    · exact ⟨fun he => hd.1 (he ▸ h'), fun he => hd.2 (he ▸ h')⟩
    · exact ⟨fun he => hp.1 (he ▸ h'), fun he => hp.2 (he ▸ h')⟩
    · exact ⟨fun he => hm.1 (he ▸ h'), fun he => hm.2 (he ▸ h')⟩
    · exact ⟨fun he => ho.1 (he ▸ h'), fun he => ho.2 (he ▸ h')⟩
    · exact ⟨fun he => hi.1 (he ▸ h'), fun he => hi.2 (he ▸ h')⟩
    · exact ⟨by decide, by decide⟩
  · exact ⟨by decide, by decide⟩

theorem normalizeRow_canonical (a b c d e : String)
    (hdate : normalizeDate a = a)
    (hpayee : (⟨trimChars b.data⟩ : String) = b)
    (hod : 0 ≤ normalizeAmount d) (hoe : 0 ≤ normalizeAmount e) :
    normalizeRow [("Date", a), ("Payee", b), ("Memo", c), ("Outflow", d), ("Inflow", e)] =
      ⟨a, "", b, normalizeAmount d, normalizeAmount e, none, ⟨trimChars c.data⟩, ""⟩ := by
  have hD : normalizeColumnName "Date" = some TxnField.transactionDate := by decide
  have hP : normalizeColumnName "Payee" = some TxnField.payee := by decide
  have hM : normalizeColumnName "Memo" = some TxnField.notes := by decide
  have hO : normalizeColumnName "Outflow" = some TxnField.outflow := by decide
  have hI : normalizeColumnName "Inflow" = some TxnField.inflow := by decide
  have s1 : normalizeRowStep emptyTransaction ("Date", a) =
      ⟨a, "", "", 0, 0, none, "", ""⟩ := by
    by_cases ha : a = ""
    · simp [normalizeRowStep, ha, emptyTransaction]
    · simp [normalizeRowStep, ha, hD, emptyTransaction, hdate]
  have s2 : normalizeRowStep ⟨a, "", "", 0, 0, none, "", ""⟩ ("Payee", b) =
      ⟨a, "", b, 0, 0, none, "", ""⟩ := by
    by_cases hb : b = ""
    · simp [normalizeRowStep, hb]
    · simp [normalizeRowStep, hb, hP, hpayee]
  have s3 : normalizeRowStep ⟨a, "", b, 0, 0, none, "", ""⟩ ("Memo", c) =
      ⟨a, "", b, 0, 0, none, ⟨trimChars c.data⟩, ""⟩ := by
    by_cases hc : c = ""
    · rw [hc]
      rfl
    · simp [normalizeRowStep, hc, hM]
  have s4 : normalizeRowStep ⟨a, "", b, 0, 0, none, ⟨trimChars c.data⟩, ""⟩ ("Outflow", d) =
      ⟨a, "", b, normalizeAmount d, 0, none, ⟨trimChars c.data⟩, ""⟩ := by
    by_cases hd' : d = ""
    · rw [hd']
      rfl
    · unfold normalizeRowStep
      rw [if_neg hd']
      simp only [hO]
      rw [if_neg (not_lt.mpr hod)]
      by_cases hpos : 0 < normalizeAmount d
      · rw [if_pos ⟨hpos, trivial⟩]
      · rw [if_neg (fun hh => hpos hh.1)]
        have h0 : normalizeAmount d = 0 := le_antisymm (not_lt.mp hpos) hod
        rw [h0]
  have s5 : normalizeRowStep ⟨a, "", b, normalizeAmount d, 0, none, ⟨trimChars c.data⟩, ""⟩
      ("Inflow", e) =
      ⟨a, "", b, normalizeAmount d, normalizeAmount e, none, ⟨trimChars c.data⟩, ""⟩ := by
    by_cases he' : e = ""
    · rw [he']
      rfl
    · unfold normalizeRowStep
      rw [if_neg he']
      simp only [hI]
      by_cases hpos : 0 < normalizeAmount e
      · rw [if_pos hpos]
      · rw [if_neg hpos, if_neg (fun hh => absurd hh.1 (not_lt.mpr hoe))]
        have h0 : normalizeAmount e = 0 := le_antisymm (not_lt.mp hpos) hoe
        rw [h0]
  show List.foldl normalizeRowStep emptyTransaction _ = _
  rw [List.foldl_cons, s1, List.foldl_cons, s2, List.foldl_cons, s3, List.foldl_cons, s4,
    List.foldl_cons, s5, List.foldl_nil]

/-- C4 (amended): serializing a batch of canonical rows — valid fixed date,
trimmed payee, non-negative two-decimal amounts with one side positive, and
no line-break characters in any field — and re-parsing reproduces every
row: same count, and each transaction carries the original date, payee and
the numeric outflow/inflow values of the original strings.  A field
containing a comma, a quote (or even a newline) is quote-wrapped with
inner quotes doubled and parses back to the original literal string at the
line level; embedded newlines nevertheless break the document round trip,
because `parseCSV` splits lines before quote processing (see the
counterexample). -/
theorem c4_csv_round_trip (rows : List YnabRow) (hc : ∀ r ∈ rows, canonicalRow r) :
    parseCSV (toCSV rows) =
      rows.map (fun r =>
        (⟨r.date, "", r.payee, normalizeAmount r.outflow, normalizeAmount r.inflow, none,
          ⟨trimChars r.memo.data⟩, ""⟩ : NormalizedTransaction)) ∧
    (parseCSV (toCSV rows)).length = rows.length ∧
    (∀ v : String, ('"' ∈ v.data ∨ ',' ∈ v.data ∨ '\n' ∈ v.data) →
        escapeCSV v = ⟨'"' :: (doubleQuotes v.data ++ ['"'])⟩ ∧
        parseCSVLine (escapeCSV v).data = [v]) := by
  have hesc : ∀ v : String, ('"' ∈ v.data ∨ ',' ∈ v.data ∨ '\n' ∈ v.data) →
      escapeCSV v = ⟨'"' :: (doubleQuotes v.data ++ ['"'])⟩ ∧
      parseCSVLine (escapeCSV v).data = [v] := by
    intro v hv
    refine ⟨?_, parseCSVLine_field_last v⟩
    unfold escapeCSV
    rw [if_pos hv]
  have main : parseCSV (toCSV rows) =
      rows.map (fun r =>
        (⟨r.date, "", r.payee, normalizeAmount r.outflow, normalizeAmount r.inflow, none,
          ⟨trimChars r.memo.data⟩, ""⟩ : NormalizedTransaction)) := by
    have hlines : splitLines (toCSV rows).data =
        ("Date,Payee,Memo,Outflow,Inflow" : String).data ::
          rows.map (fun r => (rowLine r).data) := by
      show splitLines (joinChar '\n' _) = _
      apply splitLines_join
      · intro l hl
        rcases List.mem_cons.mp hl with rfl | hl
        · intro ch hch
          constructor <;> (intro he; subst he; revert hch; decide)
        · obtain ⟨r, hr, rfl⟩ := List.mem_map.mp hl
          exact rowLine_no_break r (hc r hr)
      · simp
    have hfilter : (splitLines (toCSV rows).data).filter (fun l => !(trimChars l).isEmpty) =
        ("Date,Payee,Memo,Outflow,Inflow" : String).data ::
          rows.map (fun r => (rowLine r).data) := by
      rw [hlines]
      apply List.filter_eq_self.mpr
      intro l hl
      have hne : trimChars l ≠ [] := by
        rcases List.mem_cons.mp hl with rfl | hl
        · decide
        · obtain ⟨r, hr, rfl⟩ := List.mem_map.mp hl
          have hcm : ',' ∈ (rowLine r).data := by
            show ',' ∈ joinChar ',' _
            simp [joinChar]
          exact trimChars_ne_nil _ ',' hcm (by decide)
      simp [List.isEmpty_eq_false, hne]
    have hheader : parseCSVLine ("Date,Payee,Memo,Outflow,Inflow" : String).data =
        ["Date", "Payee", "Memo", "Outflow", "Inflow"] := rfl
    cases rows with
    | nil =>
      unfold parseCSV
      rw [hfilter, List.map_nil]
      rfl
    | cons r0 rs =>
      unfold parseCSV
      rw [hfilter, List.map_cons]
      dsimp only
      rw [hheader]
      have hpt : ∀ r ∈ r0 :: rs,
          normalizeRow (buildRecord ["Date", "Payee", "Memo", "Outflow", "Inflow"]
            (parseCSVLine (rowLine r).data)) =
          (⟨r.date, "", r.payee, normalizeAmount r.outflow, normalizeAmount r.inflow, none,
            ⟨trimChars r.memo.data⟩, ""⟩ : NormalizedTransaction) := by
        intro r hr
        obtain ⟨-, -, -, -, -, hdate, hdne, hpayee, hod, hoe, hpos⟩ := hc r hr
        rw [parseCSVLine_rowLine]
        show normalizeRow [("Date", r.date), ("Payee", r.payee), ("Memo", r.memo),
          ("Outflow", r.outflow), ("Inflow", r.inflow)] = _
        exact normalizeRow_canonical r.date r.payee r.memo r.outflow r.inflow hdate hpayee hod hoe
      rw [show ((rowLine r0).data :: rs.map (fun r => (rowLine r).data)) =
        (r0 :: rs).map (fun r => (rowLine r).data) from rfl]
      rw [List.map_map]
      have hmapped := List.map_congr_left (fun r hr => hpt r hr)
      simp only [Function.comp_def]
      rw [hmapped]
      apply List.filter_eq_self.mpr
      intro x hx
      obtain ⟨r, hr, rfl⟩ := List.mem_map.mp hx
      obtain ⟨-, -, -, -, -, -, hdne, -, -, -, hpos⟩ := hc r hr
      rcases hpos with h | h <;> simp [isValidTransaction, hdne, h]
  exact ⟨main, by rw [main, List.length_map], hesc⟩

/-- Witness for C4 (amended) at a concrete canonical batch with a comma
and quotes in the payee. -/
theorem c4_csv_round_trip_witness :
    (∀ r ∈ [(⟨"2024-03-15", "Store, \"Inc.\"", "m", "150.00", ""⟩ : YnabRow)], canonicalRow r) ∧
    parseCSV (toCSV [(⟨"2024-03-15", "Store, \"Inc.\"", "m", "150.00", ""⟩ : YnabRow)]) =
      [(⟨"2024-03-15", "Store, \"Inc.\"", "m", "150.00", ""⟩ : YnabRow)].map (fun r =>
        (⟨r.date, "", r.payee, normalizeAmount r.outflow, normalizeAmount r.inflow, none,
          ⟨trimChars r.memo.data⟩, ""⟩ : NormalizedTransaction)) :=
  ⟨by decide,
    (c4_csv_round_trip [⟨"2024-03-15", "Store, \"Inc.\"", "m", "150.00", ""⟩] (by decide)).1⟩

/-- C4 counterexample: a canonical row (valid date, positive outflow)
whose payee contains a newline is quote-wrapped by the serializer, but
`parseCSV` splits the document on line breaks before quote processing, so
re-parsing yields no transaction at all instead of the original row. -/
theorem c4_newline_payee_counterexample :
    normalizeDate "2024-03-15" = "2024-03-15" ∧
    normalizeAmount "150.00" > 0 ∧
    escapeCSV "Line1\nLine2" = "\"Line1\nLine2\"" ∧
    parseCSV (toCSV [⟨"2024-03-15", "Line1\nLine2", "", "150.00", ""⟩]) = [] ∧
    ([(⟨"2024-03-15", "Line1\nLine2", "", "150.00", ""⟩ : YnabRow)]).length = 1 := by
  refine ⟨by decide, ?_, by decide, by decide, rfl⟩
  show (0 : ℚ) < normalizeAmount "150.00"
  decide

end BankEngine
